import Mathlib

/-!
Verification of the RAG chat backend's text chunking and incremental
ingestion pipeline (`app/rag/text_processing.py` and `app/rag/ingestion.py`).

Text is modelled as `List Char` (one entry per Python character).  Python
`int` sizes (`chunk_size`, `chunk_overlap`) are modelled as `Nat`: the
configuration values are positive integers and every quantity involved is a
length, so no negative values arise.
-/

namespace RAGChat

/-- Python `\s` whitespace class, restricted to the ASCII whitespace
characters (the inputs of the system are ASCII markdown). -/
def isPySpace (c : Char) : Bool :=
  c = ' ' || c = '\t' || c = '\n' || c = '\r' || c = Char.ofNat 11 || c = Char.ofNat 12

/-- Sentence-terminal punctuation of the regex `(?<=[.!?])\s+`. -/
def isSentEnd (c : Char) : Bool :=
  c = '.' || c = '!' || c = '?'

/-- Drop a leading whitespace run. -/
def dropSpacesC : List Char → List Char
  | [] => []
  | c :: rest => if isPySpace c then dropSpacesC rest else c :: rest

theorem dropSpacesC_length_le (l : List Char) : (dropSpacesC l).length ≤ l.length := by
  induction l with
  | nil => simp [dropSpacesC]
  | cons c rest ih =>
    simp only [dropSpacesC]
    split
    · exact Nat.le_succ_of_le ih
    · simp

theorem dropSpacesC_suffix (l : List Char) : (dropSpacesC l).IsSuffix l := by
  induction l with
  | nil => simp [dropSpacesC]
  | cons c rest ih =>
    simp only [dropSpacesC]
    split
    · exact ih.trans (List.suffix_cons c rest)
    · exact List.suffix_rfl

/-- Worker for `re.sub(r'\s+', ' ', text)`: `prevWs` records whether the
previous character was whitespace, so a whitespace run contributes exactly one
space. -/
def collapseAux (prevWs : Bool) : List Char → List Char
  | [] => []
  | c :: rest =>
    if isPySpace c then
      if prevWs then collapseAux true rest else ' ' :: collapseAux true rest
    else c :: collapseAux false rest

/-- `re.sub(r'\s+', ' ', text)`: collapse every whitespace run to a single
space. -/
def collapseWs (l : List Char) : List Char :=
  collapseAux false l

/-- Python `str.strip()`: remove leading and trailing whitespace. -/
def stripC (l : List Char) : List Char :=
  dropSpacesC ((dropSpacesC l.reverse).reverse)

/-- The text cleaning step of `chunk_text`
(`re.sub(r'\s+', ' ', text).strip()`). -/
def cleanTextC (l : List Char) : List Char :=
  stripC (collapseWs l)

/-- Worker for `re.split(r'(?<=[.!?])\s+', text)`: a whitespace run whose
preceding character is `.`, `!` or `?` is a delimiter.  `cur` holds the
current token reversed, so its head is the previously read character;
`skipping` is true while consuming the remainder of a delimiter run. -/
def splitSentAux (skipping : Bool) (cur : List Char) : List Char → List (List Char)
  | [] => [cur.reverse]
  | c :: rest =>
    if skipping then
      if isPySpace c then splitSentAux true [] rest
      else splitSentAux false [c] rest
    else if isPySpace c && (match cur with | p :: _ => isSentEnd p | [] => false)
    then cur.reverse :: splitSentAux true [] rest
    else splitSentAux false (c :: cur) rest

/-- `re.split(r'(?<=[.!?])\s+', text)`. -/
def splitSentC (l : List Char) : List (List Char) :=
  splitSentAux false [] l

/-- Worker for Python `str.split()`: `cur` is the current word reversed. -/
def pyWordsAux (cur : List Char) : List Char → List (List Char)
  | [] => if cur.isEmpty then [] else [cur.reverse]
  | c :: rest =>
    if isPySpace c then
      if cur.isEmpty then pyWordsAux [] rest
      else cur.reverse :: pyWordsAux [] rest
    else pyWordsAux (c :: cur) rest

/-- Python `str.split()` (split on whitespace runs, dropping empty parts). -/
def pyWordsC (l : List Char) : List (List Char) :=
  pyWordsAux [] l

/-- Tail part of `' '.join`: each further element is preceded by one space. -/
def joinTail : List (List Char) → List Char
  | [] => []
  | w :: ws => (' ' :: w) ++ joinTail ws

/-- Python `' '.join(pieces)`. -/
def joinSp : List (List Char) → List Char
  | [] => []
  | w :: ws => w ++ joinTail ws

/-- The three running variables of `TextProcessor.chunk_text`:
`chunks`, `current_chunk` (a list of sentence/word pieces) and
`current_length`. -/
structure ChunkSt where
  chunks : List (List Char)
  current_chunk : List (List Char)
  current_length : Nat
deriving DecidableEq, Repr

/-- Lines 99-105 of `text_processing.py`: walk the elements of
`current_chunk` from the end (the caller passes the reversed list),
accumulating elements while `overlap_length + len(word) + 1 ≤ chunk_overlap`;
stop at the first element that would exceed the budget. -/
def overlapLoop (chunk_overlap : Nat) : List (List Char) → Nat → List (List Char) →
    List (List Char) × Nat
  | acc, accLen, [] => (acc, accLen)
  | acc, accLen, w :: ws =>
    if accLen + w.length + 1 > chunk_overlap then (acc, accLen)
    else overlapLoop chunk_overlap (w :: acc) (accLen + w.length + 1) ws

/-- Lines 76-85 of `text_processing.py`: split an oversized sentence's words
into pieces.  Python's `(1 if current_piece else 0)` on line 85 is evaluated
after the append, so it tests the extended piece. -/
def pieceLoop (chunk_size : Nat) :
    List (List Char) → List (List Char) → Nat → List (List Char) →
    List (List Char) × List (List Char) × Nat
  | chunks, piece, pieceLen, [] => (chunks, piece, pieceLen)
  | chunks, piece, pieceLen, w :: ws =>
    if pieceLen + w.length + (if piece.isEmpty then 0 else 1) > chunk_size then
      let chunks1 := if piece.isEmpty then chunks else chunks ++ [joinSp piece]
      pieceLoop chunk_size chunks1 [w] w.length ws
    else
      pieceLoop chunk_size chunks (piece ++ [w])
        (pieceLen + w.length + (if (piece ++ [w]).isEmpty then 0 else 1)) ws

/-- Lines 66-69 of `text_processing.py`: flush a non-empty current chunk. -/
def flushCur (st : ChunkSt) : ChunkSt :=
  if st.current_chunk.isEmpty then st
  else ⟨st.chunks ++ [joinSp st.current_chunk], [], 0⟩

/-- Lines 65-89 of `text_processing.py`: the oversized-sentence branch.
The current chunk is flushed, the sentence is split into word pieces, and the
final piece (if any) becomes the new current chunk. -/
def oversizedStep (chunk_size : Nat) (st : ChunkSt) (sentence : List Char) : ChunkSt :=
  let st1 := flushCur st
  let r := pieceLoop chunk_size st1.chunks [] 0 (pyWordsC sentence)
  if r.2.1.isEmpty then ⟨r.1, st1.current_chunk, st1.current_length⟩
  else ⟨r.1, r.2.1, r.2.2⟩

/-- Lines 92-111 of `text_processing.py`: the sentence fits alone but not
with the accumulator; close the chunk and seed the next accumulator with the
overlap window. -/
def overflowStep (_chunk_size chunk_overlap : Nat) (st : ChunkSt) (sentence : List Char) :
    ChunkSt :=
  let chunks1 :=
    if st.current_chunk.isEmpty then st.chunks else st.chunks ++ [joinSp st.current_chunk]
  if 0 < chunk_overlap ∧ ¬ st.current_chunk.isEmpty then
    let ow := (overlapLoop chunk_overlap [] 0 st.current_chunk.reverse).1
    let nc := ow ++ [sentence]
    ⟨chunks1, nc, (nc.map List.length).sum + nc.length - 1⟩
  else
    ⟨chunks1, [sentence], sentence.length⟩

/-- Lines 112-114 of `text_processing.py`: append the sentence to the current
chunk.  Python's `(1 if len(current_chunk) > 1 else 0)` tests the extended
list. -/
def appendStep (st : ChunkSt) (sentence : List Char) : ChunkSt :=
  let nc := st.current_chunk ++ [sentence]
  ⟨st.chunks, nc, st.current_length + sentence.length + (if nc.length > 1 then 1 else 0)⟩

/-- The body of the `for sentence in sentences` loop of `chunk_text`
(lines 61-114 of `text_processing.py`). -/
def chunkStep (chunk_size chunk_overlap : Nat) (st : ChunkSt) (sentence : List Char) :
    ChunkSt :=
  if sentence.length > chunk_size then oversizedStep chunk_size st sentence
  else if st.current_length + sentence.length +
      (if st.current_chunk.isEmpty then 0 else 1) > chunk_size then
    overflowStep chunk_size chunk_overlap st sentence
  else appendStep st sentence

/-- The state after folding `chunkStep` over the sentence list. -/
def chunkFold (chunk_size chunk_overlap : Nat) (sentences : List (List Char)) : ChunkSt :=
  sentences.foldl (chunkStep chunk_size chunk_overlap) ⟨[], [], 0⟩

/-- Lines 116-118 of `text_processing.py`: emit the trailing accumulator as
the last chunk only if it exists and is not too long. -/
def finalChunks (chunk_size : Nat) (st : ChunkSt) : List (List Char) :=
  if st.current_chunk ≠ [] ∧ st.current_length ≤ chunk_size then
    st.chunks ++ [joinSp st.current_chunk]
  else st.chunks

/-- `TextProcessor.chunk_text` (lines 43-121 of `text_processing.py`). -/
def chunk_text (chunk_size chunk_overlap : Nat) (text : List Char) : List (List Char) :=
  if stripC text = [] then []
  else
    finalChunks chunk_size
      (chunkFold chunk_size chunk_overlap (splitSentC (cleanTextC text)))

/-- Convenience: the characters of a string literal. -/
def strL (s : String) : List Char := s.data

end RAGChat

namespace RAGChat

/-! ### Length lemmas for `' '.join` -/

/-- Joined length of a piece list. -/
def joinLen (l : List (List Char)) : Nat := (joinSp l).length

theorem joinTail_length (ws : List (List Char)) :
    (joinTail ws).length = (ws.map List.length).sum + ws.length := by
  induction ws with
  | nil => simp [joinTail]
  | cons w ws ih => simp [joinTail, ih]; omega

theorem joinLen_nil : joinLen [] = 0 := rfl

theorem joinLen_single (w : List Char) : joinLen [w] = w.length := by
  simp [joinLen, joinSp, joinTail]

theorem joinLen_cons (w : List Char) (ws : List (List Char)) :
    joinLen (w :: ws) = w.length + (joinTail ws).length := by
  simp [joinLen, joinSp]

theorem joinLen_cons_of_ne (w : List Char) (ws : List (List Char)) (h : ws ≠ []) :
    joinLen (w :: ws) = w.length + 1 + joinLen ws := by
  cases ws with
  | nil => exact absurd rfl h
  | cons v vs => simp [joinLen, joinSp, joinTail]; omega

theorem joinLen_eq_sum (l : List (List Char)) (h : l ≠ []) :
    joinLen l = (l.map List.length).sum + l.length - 1 := by
  cases l with
  | nil => exact absurd rfl h
  | cons w ws => simp [joinLen_cons, joinTail_length]; omega

theorem joinTail_append (a b : List (List Char)) :
    joinTail (a ++ b) = joinTail a ++ joinTail b := by
  induction a with
  | nil => simp [joinTail]
  | cons w ws ih => simp [joinTail, ih]

theorem joinSp_append_single (l : List (List Char)) (s : List Char) (h : l ≠ []) :
    joinSp (l ++ [s]) = joinSp l ++ ' ' :: s := by
  cases l with
  | nil => exact absurd rfl h
  | cons w ws => simp [joinSp, joinTail_append, joinTail]

theorem joinLen_append_single (l : List (List Char)) (s : List Char) :
    joinLen (l ++ [s]) = joinLen l + (if l = [] then 0 else 1) + s.length := by
  cases l with
  | nil => simp [joinLen_single, joinLen_nil]
  | cons w ws =>
    simp [joinLen, joinSp, joinTail_append, joinTail]
    omega

/-! ### Whitespace-free tokens -/

/-- An atomic token: contains no whitespace character. -/
def NoWsTok (w : List Char) : Prop := ∀ c ∈ w, isPySpace c = false

theorem dropSpacesC_head (l : List Char) (c : Char) (rest : List Char)
    (h : dropSpacesC l = c :: rest) : isPySpace c = false := by
  induction l with
  | nil => simp [dropSpacesC] at h
  | cons a as ih =>
    simp only [dropSpacesC] at h
    split at h
    · exact ih h
    · cases h
      simp_all

theorem pyWordsAux_noWs (l : List Char) :
    ∀ cur : List Char, NoWsTok cur → ∀ w ∈ pyWordsAux cur l, NoWsTok w := by
  induction l with
  | nil =>
    intro cur hcur w hw
    simp only [pyWordsAux] at hw
    split at hw
    · simp at hw
    · simp at hw
      subst hw
      intro c hc
      exact hcur c (List.mem_reverse.mp hc)
  | cons c rest ih =>
    intro cur hcur w hw
    simp only [pyWordsAux] at hw
    split at hw
    · split at hw
      · exact ih [] (by intro x hx; simp at hx) w hw
      · rcases List.mem_cons.mp hw with hw | hw
        · subst hw
          intro x hx
          exact hcur x (List.mem_reverse.mp hx)
        · exact ih [] (by intro x hx; simp at hx) w hw
    · rename_i hcns
      refine ih (c :: cur) ?_ w hw
      intro x hx
      rcases List.mem_cons.mp hx with hx | hx
      · subst hx
        simpa using hcns
      · exact hcur x hx

theorem pyWordsC_noWs (l : List Char) : ∀ w ∈ pyWordsC l, NoWsTok w :=
  pyWordsAux_noWs l [] (by intro x hx; simp at hx)

/-! ### Bounds on the chunk accumulator (claim C1) -/

/-- A chunk is "good" when its length is within `chunk_size + chunk_overlap`,
or it is a single whitespace-free token. -/
def GoodChunk (cs co : Nat) (c : List Char) : Prop :=
  c.length ≤ cs + co ∨ NoWsTok c

/-- Invariant of the word-piece loop: the tracked length dominates the joined
length, and the piece is a single word, or empty, or within `chunk_size`. -/
def PieceInvC1 (cs : Nat) (piece : List (List Char)) (pieceLen : Nat) : Prop :=
  joinLen piece ≤ pieceLen ∧
  ((∃ w, piece = [w] ∧ NoWsTok w) ∨ (piece = [] ∧ pieceLen = 0) ∨
    (piece ≠ [] ∧ pieceLen ≤ cs))

theorem overlapLoop_spec (co : Nat) :
    ∀ (rev acc : List (List Char)) (accLen : Nat),
    accLen ≤ co → (acc = [] → accLen = 0) → (acc ≠ [] → accLen = joinLen acc + 1) →
    (overlapLoop co acc accLen rev).2 ≤ co ∧
    ((overlapLoop co acc accLen rev).1 = [] → (overlapLoop co acc accLen rev).2 = 0) ∧
    ((overlapLoop co acc accLen rev).1 ≠ [] →
      (overlapLoop co acc accLen rev).2 = joinLen (overlapLoop co acc accLen rev).1 + 1) := by
  intro rev
  induction rev with
  | nil =>
    intro acc accLen h1 h2 h3
    exact ⟨h1, h2, h3⟩
  | cons w ws ih =>
    intro acc accLen h1 h2 h3
    simp only [overlapLoop]
    split
    · exact ⟨h1, h2, h3⟩
    · rename_i hg
      apply ih
      · omega
      · intro h
        simp at h
      · intro _
        cases acc with
        | nil =>
          rw [joinLen_single]
          have := h2 rfl
          omega
        | cons a as =>
          rw [joinLen_cons_of_ne _ _ (by simp)]
          have := h3 (by simp)
          omega

theorem overlapLoop_window_le (co : Nat) (rev : List (List Char)) :
    joinLen (overlapLoop co [] 0 rev).1 ≤ co ∧ (overlapLoop co [] 0 rev).2 ≤ co := by
  have h := overlapLoop_spec co rev [] 0 (Nat.zero_le co) (fun _ => rfl) (by simp)
  refine ⟨?_, h.1⟩
  by_cases he : (overlapLoop co [] 0 rev).1 = []
  · rw [he, joinLen_nil]
    exact Nat.zero_le co
  · have := h.2.2 he
    omega

theorem pieceLoop_C1 (cs co : Nat) :
    ∀ (words chunks piece : List (List Char)) (pieceLen : Nat),
    (∀ c ∈ chunks, GoodChunk cs co c) → PieceInvC1 cs piece pieceLen →
    (∀ w ∈ words, NoWsTok w) →
    (∀ c ∈ (pieceLoop cs chunks piece pieceLen words).1, GoodChunk cs co c) ∧
    PieceInvC1 cs (pieceLoop cs chunks piece pieceLen words).2.1
      (pieceLoop cs chunks piece pieceLen words).2.2 := by
  have happ : ∀ (p : List (List Char)) (v : List Char),
      (if (p ++ [v]).isEmpty = true then (0 : Nat) else 1) = 1 := by
    intro p v
    simp
  intro words
  induction words with
  | nil =>
    intro chunks piece pieceLen hch hpi _
    exact ⟨hch, hpi⟩
  | cons w ws ih =>
    intro chunks piece pieceLen hch hpi hws
    obtain ⟨hle, hdisj⟩ := hpi
    have hwnw : NoWsTok w := hws w (by simp)
    have hws' : ∀ v ∈ ws, NoWsTok v := fun v hv => hws v (List.mem_cons_of_mem _ hv)
    simp only [pieceLoop, happ]
    split
    · -- piece is empty: nothing to flush
      rename_i hemp
      have hpe : piece = [] := by simpa using hemp
      split
      · exact ih chunks [w] w.length hch
          ⟨by rw [joinLen_single], Or.inl ⟨w, rfl, hwnw⟩⟩ hws'
      · rename_i hg
        apply ih chunks (piece ++ [w]) (pieceLen + w.length + 1) hch ?_ hws'
        subst hpe
        refine ⟨?_, Or.inl ⟨w, by simp, hwnw⟩⟩
        simp only [List.nil_append, joinLen_single]
        omega
    · -- piece is non-empty
      rename_i hemp
      have hpe : piece ≠ [] := by simpa using hemp
      split
      · -- flush the piece, restart from `w`
        rename_i hg
        apply ih (chunks ++ [joinSp piece]) [w] w.length ?_
          ⟨by rw [joinLen_single], Or.inl ⟨w, rfl, hwnw⟩⟩ hws'
        intro c hc
        rcases List.mem_append.mp hc with hc | hc
        · exact hch c hc
        · have : c = joinSp piece := by simpa using hc
          subst this
          rcases hdisj with ⟨v, hv, hnws⟩ | ⟨hnil, _⟩ | ⟨_, hlen⟩
          · right
            rw [hv]
            simpa [joinSp, joinTail] using hnws
          · exact absurd hnil hpe
          · exact Or.inl (le_trans (le_trans hle hlen) (Nat.le_add_right cs co))
      · -- append the word
        rename_i hg
        apply ih chunks (piece ++ [w]) (pieceLen + w.length + 1) hch ?_ hws'
        refine ⟨?_, Or.inr (Or.inr ⟨by simp [hpe], ?_⟩)⟩
        · rw [joinLen_append_single]
          simp only [hpe, if_neg, not_false_iff]
          omega
        · omega

/-- Invariant of the sentence fold: emitted chunks are good, the tracked
length dominates the joined length, and the accumulator is a single
whitespace-free token or within `chunk_size + chunk_overlap`. -/
def StInvC1 (cs co : Nat) (st : ChunkSt) : Prop :=
  (∀ c ∈ st.chunks, GoodChunk cs co c) ∧
  joinLen st.current_chunk ≤ st.current_length ∧
  ((∃ w, st.current_chunk = [w] ∧ NoWsTok w) ∨ joinLen st.current_chunk ≤ cs + co)

theorem goodChunk_of_acc (cs co : Nat) (cur : List (List Char))
    (hdisj : (∃ w, cur = [w] ∧ NoWsTok w) ∨ joinLen cur ≤ cs + co) :
    GoodChunk cs co (joinSp cur) := by
  rcases hdisj with ⟨w, hw, hnws⟩ | hlen
  · right
    rw [hw]
    simpa [joinSp, joinTail] using hnws
  · left
    exact hlen

theorem flushCur_C1 (cs co : Nat) (st : ChunkSt) (h : StInvC1 cs co st) :
    (∀ c ∈ (flushCur st).chunks, GoodChunk cs co c) ∧ (flushCur st).current_chunk = [] := by
  obtain ⟨hch, _, hdisj⟩ := h
  by_cases hemp : st.current_chunk.isEmpty
  · have hc : st.current_chunk = [] := by simpa using hemp
    rw [flushCur, if_pos hemp]
    exact ⟨hch, hc⟩
  · simp only [flushCur, hemp, Bool.false_eq_true, not_false_iff, if_neg]
    refine ⟨?_, trivial⟩
    intro c hc
    rcases List.mem_append.mp hc with hc | hc
    · exact hch c hc
    · have : c = joinSp st.current_chunk := by simpa using hc
      subst this
      exact goodChunk_of_acc cs co _ hdisj

theorem oversizedStep_C1 (cs co : Nat) (st : ChunkSt) (s : List Char)
    (h : StInvC1 cs co st) : StInvC1 cs co (oversizedStep cs st s) := by
  have hfl := flushCur_C1 cs co st h
  have hpl := pieceLoop_C1 cs co (pyWordsC s) (flushCur st).chunks [] 0 hfl.1
    ⟨by rw [joinLen_nil], Or.inr (Or.inl ⟨rfl, rfl⟩)⟩ (pyWordsC_noWs s)
  simp only [oversizedStep]
  split
  · refine ⟨hpl.1, ?_, Or.inr ?_⟩
    · rw [hfl.2, joinLen_nil]
      exact Nat.zero_le _
    · rw [hfl.2, joinLen_nil]
      exact Nat.zero_le _
  · rename_i hpemp
    obtain ⟨hple, hpd⟩ := hpl.2
    refine ⟨hpl.1, hple, ?_⟩
    rcases hpd with ⟨w, hw, hnws⟩ | ⟨hnil, _⟩ | ⟨_, hlen⟩
    · exact Or.inl ⟨w, hw, hnws⟩
    · rw [hnil] at hpemp
      simp at hpemp
    · exact Or.inr (le_trans (le_trans hple hlen) (Nat.le_add_right cs co))

theorem overflowStep_C1 (cs co : Nat) (st : ChunkSt) (s : List Char)
    (hfit : s.length ≤ cs) (h : StInvC1 cs co st) :
    StInvC1 cs co (overflowStep cs co st s) := by
  obtain ⟨hch, hle, hdisj⟩ := h
  have hch1 : ∀ c ∈ (if st.current_chunk.isEmpty then st.chunks
      else st.chunks ++ [joinSp st.current_chunk]), GoodChunk cs co c := by
    intro c hc
    by_cases hemp : st.current_chunk.isEmpty
    · simp only [hemp, if_pos] at hc
      exact hch c hc
    · simp only [hemp, Bool.false_eq_true, not_false_iff, if_neg] at hc
      rcases List.mem_append.mp hc with hc | hc
      · exact hch c hc
      · have : c = joinSp st.current_chunk := by simpa using hc
        subst this
        exact goodChunk_of_acc cs co _ hdisj
  simp only [overflowStep]
  split
  · -- overlap seeding
    have hwin := overlapLoop_spec co st.current_chunk.reverse [] 0
      (Nat.zero_le co) (fun _ => rfl) (by simp)
    refine ⟨hch1, ?_, ?_⟩
    · rw [joinLen_eq_sum _ (by simp : (overlapLoop co [] 0 st.current_chunk.reverse).1
        ++ [s] ≠ [])]
    · right
      rw [joinLen_append_single]
      by_cases hwe : (overlapLoop co [] 0 st.current_chunk.reverse).1 = []
      · rw [hwe, joinLen_nil]
        have hz : (0 : Nat) + s.length ≤ cs + co := by omega
        simpa using hz
      · simp only [hwe, if_neg, not_false_iff]
        have h1 := hwin.2.2 hwe
        have h2 := hwin.1
        omega
  · -- restart from the sentence alone
    refine ⟨hch1, by rw [joinLen_single], Or.inr ?_⟩
    rw [joinLen_single]
    omega

theorem appendStep_C1 (cs co : Nat) (st : ChunkSt) (s : List Char)
    (hg : st.current_length + s.length +
      (if st.current_chunk.isEmpty then 0 else 1) ≤ cs)
    (h : StInvC1 cs co st) : StInvC1 cs co (appendStep st s) := by
  obtain ⟨chs, cur, clen⟩ := st
  obtain ⟨hch, hle, _⟩ := h
  dsimp only at hch hle hg
  simp only [appendStep]
  by_cases hemp : cur = []
  · subst hemp
    simp only [List.isEmpty_nil, if_pos] at hg
    have hj : joinLen ([] ++ [s]) = s.length := by simp [joinLen_single]
    have hif : (if (([] ++ [s] : List (List Char)).length > 1) then 1 else 0) = 0 := by simp
    refine ⟨hch, ?_, Or.inr ?_⟩
    · show joinLen ([] ++ [s]) ≤
        clen + s.length + (if (([] ++ [s] : List (List Char)).length > 1) then 1 else 0)
      rw [hj, hif]
      omega
    · show joinLen ([] ++ [s]) ≤ cs + co
      rw [hj]
      omega
  · rw [if_neg (by simpa using hemp)] at hg
    have hlen1 : (cur ++ [s]).length > 1 := by
      cases cur with
      | nil => exact absurd rfl hemp
      | cons a as => simp
    refine ⟨hch, ?_, Or.inr ?_⟩
    · show joinLen (cur ++ [s]) ≤
        clen + s.length + (if ((cur ++ [s]).length > 1) then 1 else 0)
      rw [joinLen_append_single, if_neg hemp, if_pos hlen1]
      omega
    · show joinLen (cur ++ [s]) ≤ cs + co
      rw [joinLen_append_single, if_neg hemp]
      omega

theorem chunkStep_C1 (cs co : Nat) (st : ChunkSt) (s : List Char)
    (h : StInvC1 cs co st) : StInvC1 cs co (chunkStep cs co st s) := by
  rw [chunkStep]
  by_cases h1 : s.length > cs
  · rw [if_pos h1]
    exact oversizedStep_C1 cs co st s h
  · rw [if_neg h1]
    by_cases h2 : st.current_length + s.length +
        (if st.current_chunk.isEmpty then 0 else 1) > cs
    · rw [if_pos h2]
      exact overflowStep_C1 cs co st s (by omega) h
    · rw [if_neg h2]
      exact appendStep_C1 cs co st s (by omega) h

theorem chunkFold_C1 (cs co : Nat) (sentences : List (List Char)) :
    StInvC1 cs co (chunkFold cs co sentences) := by
  have hinit : StInvC1 cs co ⟨[], [], 0⟩ := by
    refine ⟨by simp, by simp [joinLen_nil], Or.inr (by simp [joinLen_nil])⟩
  rw [chunkFold]
  generalize hst : (⟨[], [], 0⟩ : ChunkSt) = st0
  rw [hst] at hinit
  clear hst
  induction sentences generalizing st0 with
  | nil => exact hinit
  | cons s ss ih =>
    rw [List.foldl_cons]
    exact ih _ (chunkStep_C1 cs co st0 s hinit)

/-! ### Claim theorems for the Chunker (C1, C2, C3) -/

/-- Claim C1 counterexample: with `chunk_size = 10` and `chunk_overlap = 5`,
the input below makes `chunk_text` emit the overlap-seeded chunk
"Hi. Cc ddd ee." of length 14 > 10, which contains spaces and hence is not a
single atomic token; so a returned chunk can exceed `chunk_size` without
being an oversized atomic token. -/
theorem C1_counterexample :
    chunk_text 10 5 (strL "Aaa bb. Hi. Cc ddd ee. Zz.") =
      [strL "Aaa bb.", strL "Hi.", strL "Hi. Cc ddd ee.", strL "Zz."] ∧
    (strL "Hi. Cc ddd ee.").length > 10 ∧
    ¬ NoWsTok (strL "Hi. Cc ddd ee.") := by
  refine ⟨by decide, by decide, ?_⟩
  intro h
  exact absurd (h ' ' (by decide)) (by decide)

/-- Claim C1 (amended): every chunk returned by `chunk_text` has length at
most `chunk_size + chunk_overlap` unless it is a single whitespace-free
atomic token; the stronger `chunk_size` bound claimed by the spec can be
exceeded by a chunk seeded with an overlap window. -/
theorem C1_chunk_size_bound (cs co : Nat) (text : List Char) :
    ∀ c ∈ chunk_text cs co text, c.length ≤ cs + co ∨ NoWsTok c := by
  intro c hc
  rw [chunk_text] at hc
  split at hc
  · simp at hc
  · obtain ⟨hch, hle, _⟩ := chunkFold_C1 cs co (splitSentC (cleanTextC text))
    rw [finalChunks] at hc
    split at hc
    · rename_i hcond
      rcases List.mem_append.mp hc with hc | hc
      · exact hch c hc
      · have hceq : c = joinSp (chunkFold cs co (splitSentC (cleanTextC text))).current_chunk := by
          simpa using hc
        subst hceq
        left
        exact le_trans (le_trans hle hcond.2) (Nat.le_add_right cs co)
    · exact hch c hc

theorem C1_chunk_size_bound_witness :
    (strL "Hi. Cc ddd ee.") ∈ chunk_text 10 5 (strL "Aaa bb. Hi. Cc ddd ee. Zz.") ∧
    ((strL "Hi. Cc ddd ee.").length ≤ 10 + 5 ∨ NoWsTok (strL "Hi. Cc ddd ee.")) :=
  ⟨by decide, C1_chunk_size_bound 10 5 (strL "Aaa bb. Hi. Cc ddd ee. Zz.")
    (strL "Hi. Cc ddd ee.") (by decide)⟩

/-- Chunk 2 begins with a word overlap carried from the tail of chunk 1:
some non-empty trailing run of the words of `c1` is a leading run of the
words of `c2`. -/
def beginsWithWordOverlap (c1 c2 : List Char) : Prop :=
  ∃ k, 0 < k ∧ k ≤ (pyWordsC c1).length ∧
    (pyWordsC c1).drop ((pyWordsC c1).length - k) = (pyWordsC c2).take k

/-- Claim C2 counterexample: for the spec's end-to-end scenario
(`chunk_size = 20`, `chunk_overlap = 5`) the chunker returns the three
sentences unchanged, and chunk 2 ("Sentence two.") does not begin with any
word overlap carried from the tail of chunk 1 ("Sentence one."): the overlap
loop walks whole accumulated sentence elements, and "Sentence one." already
exceeds the overlap budget. -/
theorem C2_counterexample :
    chunk_text 20 5 (strL "Sentence one. Sentence two. Sentence three.") =
      [strL "Sentence one.", strL "Sentence two.", strL "Sentence three."] ∧
    ¬ beginsWithWordOverlap (strL "Sentence one.") (strL "Sentence two.") := by
  refine ⟨by decide, ?_⟩
  rintro ⟨k, hk0, hkle, heq⟩
  have hlen : (pyWordsC (strL "Sentence one.")).length = 2 := by decide
  rw [hlen] at hkle
  interval_cases k
  · rw [hlen] at heq
    exact absurd heq (by decide)
  · rw [hlen] at heq
    exact absurd heq (by decide)

/-- Claim C2 (amended): the overlap window is accumulated from whole
accumulated elements (sentences, or word pieces of an oversized sentence),
not from individual words; in the scenario the single trailing element
"Sentence one." of chunk 1 already exceeds `chunk_overlap = 5`, so the window
is empty and the three sentences are returned as three chunks, each of length
at most 20, with no overlap carried into chunk 2. -/
theorem C2_scenario :
    chunk_text 20 5 (strL "Sentence one. Sentence two. Sentence three.") =
      [strL "Sentence one.", strL "Sentence two.", strL "Sentence three."] ∧
    (chunk_text 20 5 (strL "Sentence one. Sentence two. Sentence three.")).length = 3 ∧
    (∀ c ∈ chunk_text 20 5 (strL "Sentence one. Sentence two. Sentence three."),
      c.length ≤ 20) ∧
    (overlapLoop 5 [] 0 (List.reverse [strL "Sentence one."])).1 = [] := by
  refine ⟨by decide, by decide, ?_, by decide⟩
  decide

/-- Claim C3 counterexample: with `chunk_size = 7` and `chunk_overlap = 5`,
the text "aaa bb. aaa bb." yields two identical consecutive chunks; the
shared trailing/leading word run is the whole two-word chunk, and its
character length 7 exceeds `chunk_overlap = 5`. -/
theorem C3_counterexample :
    chunk_text 7 5 (strL "aaa bb. aaa bb.") = [strL "aaa bb.", strL "aaa bb."] ∧
    beginsWithWordOverlap (strL "aaa bb.") (strL "aaa bb.") ∧
    joinLen ((pyWordsC (strL "aaa bb.")).take 2) = 7 ∧ ¬ (7 ≤ 5) := by
  refine ⟨by decide, ⟨2, by decide, by decide, by decide⟩, by decide, by decide⟩

/-- Claim C3 (amended): the overlap window that the chunker carries into the
next chunk never exceeds `chunk_overlap` characters: starting from the empty
window, the accumulated counter stays at most `chunk_overlap` and the joined
character length of the window is bounded by it; and in the overflow branch
the next accumulator is exactly that window followed by the new sentence.
Consecutive chunks can nevertheless share a longer word run when the text
itself repeats. -/
theorem C3_overlap_window_bound (co : Nat) (rev : List (List Char)) :
    joinLen (overlapLoop co [] 0 rev).1 ≤ co ∧ (overlapLoop co [] 0 rev).2 ≤ co ∧
    (∀ (cs : Nat) (st : ChunkSt) (s : List Char), 0 < co → st.current_chunk ≠ [] →
      (overflowStep cs co st s).current_chunk =
        (overlapLoop co [] 0 st.current_chunk.reverse).1 ++ [s]) := by
  obtain ⟨h1, h2⟩ := overlapLoop_window_le co rev
  refine ⟨h1, h2, ?_⟩
  intro cs st s hco hne
  rw [overflowStep, if_pos ⟨hco, by simpa using hne⟩]

theorem C3_overlap_window_bound_witness :
    (overflowStep 7 5 ⟨[], [strL "aaa bb."], 7⟩ (strL "aaa bb.")).current_chunk =
      (overlapLoop 5 [] 0 (List.reverse [strL "aaa bb."])).1 ++ [strL "aaa bb."] :=
  (C3_overlap_window_bound 5 []).2.2 7 ⟨[], [strL "aaa bb."], 7⟩ (strL "aaa bb.")
    (by decide) (by decide)

/-! ### Normalisation of the cleaned text (towards claim C7)

The cleaned text produced by `cleanTextC` has no leading or trailing
whitespace, no two adjacent whitespace characters, and all its whitespace
characters are plain spaces; `splitSentC` preserves these properties for
every token.  On such tokens `' '.join(token.split())` is the identity,
which is what makes the chunker's tracked `current_length` agree exactly
with the joined length of the accumulator. -/

/-- The first character (if any) is not whitespace. -/
def NoLeadWs : List Char → Prop
  | [] => True
  | c :: _ => isPySpace c = false

/-- The last character (if any) is not whitespace. -/
def NoTrailWs (l : List Char) : Prop := NoLeadWs l.reverse

/-- No two adjacent whitespace characters. -/
def NoDoubleWs (l : List Char) : Prop :=
  List.Chain' (fun a b => ¬(isPySpace a = true ∧ isPySpace b = true)) l

/-- Every whitespace character is a plain space. -/
def WsIsSpace (l : List Char) : Prop := ∀ c ∈ l, isPySpace c = true → c = ' '

/-- A token as produced by sentence splitting on cleaned text. -/
def CleanToken (l : List Char) : Prop :=
  NoLeadWs l ∧ NoTrailWs l ∧ NoDoubleWs l ∧ WsIsSpace l

theorem noLeadWs_of_append {x y : List Char} (h : NoLeadWs (x ++ y)) (hx : x ≠ []) :
    NoLeadWs x := by
  cases x with
  | nil => exact absurd rfl hx
  | cons c t => exact h

theorem noLeadWs_append_left {x y : List Char} (h : NoLeadWs x) (hx : x ≠ []) :
    NoLeadWs (x ++ y) := by
  cases x with
  | nil => exact absurd rfl hx
  | cons c t => exact h

theorem noTrailWs_nil : NoTrailWs [] := trivial

theorem noTrailWs_tail {c : Char} {rest : List Char} (h : NoTrailWs (c :: rest)) :
    NoTrailWs rest := by
  cases hr : rest with
  | nil => trivial
  | cons d t =>
    rw [NoTrailWs, List.reverse_cons] at h
    rw [NoTrailWs]
    subst hr
    exact noLeadWs_of_append h (by simp)

theorem noTrailWs_of_append {x y : List Char} (h : NoTrailWs (x ++ y)) (hy : y ≠ []) :
    NoTrailWs y := by
  rw [NoTrailWs, List.reverse_append] at h
  exact noLeadWs_of_append h (by simpa using hy)

theorem noDoubleWs_tail {c : Char} {rest : List Char} (h : NoDoubleWs (c :: rest)) :
    NoDoubleWs rest := h.tail

theorem wsIsSpace_of_append_right {x y : List Char} (h : WsIsSpace (x ++ y)) :
    WsIsSpace y := fun c hc => h c (List.mem_append.mpr (Or.inr hc))

theorem wsIsSpace_of_append_left {x y : List Char} (h : WsIsSpace (x ++ y)) :
    WsIsSpace x := fun c hc => h c (List.mem_append.mpr (Or.inl hc))

theorem isSentEnd_not_space {p : Char} (h : isSentEnd p = true) :
    isPySpace p = false := by
  rw [isSentEnd] at h
  rcases (by simpa using h : (p = '.' ∨ p = '!') ∨ p = '?') with (h | h) | h <;>
    subst h <;> decide

theorem collapseAux_wsIsSpace : ∀ (l : List Char) (b : Bool), WsIsSpace (collapseAux b l) := by
  intro l
  induction l with
  | nil => intro b c hc _; simp [collapseAux] at hc
  | cons c rest ih =>
    intro b d hd hws
    simp only [collapseAux] at hd
    split at hd
    · split at hd
      · exact ih true d hd hws
      · rcases List.mem_cons.mp hd with hd | hd
        · exact hd
        · exact ih true d hd hws
    · rcases List.mem_cons.mp hd with hd | hd
      · subst hd
        rename_i hns
        simp at hns
        rw [hns] at hws
        exact absurd hws (by simp)
      · exact ih false d hd hws

theorem collapseAux_noLead : ∀ l : List Char, NoLeadWs (collapseAux true l) := by
  intro l
  induction l with
  | nil => trivial
  | cons c rest ih =>
    simp only [collapseAux]
    split
    · exact ih
    · rename_i hns
      simp only [NoLeadWs]
      simpa using hns

theorem collapseAux_noDouble : ∀ (l : List Char) (b : Bool), NoDoubleWs (collapseAux b l) := by
  intro l
  induction l with
  | nil => intro b; exact List.chain'_nil
  | cons c rest ih =>
    intro b
    simp only [collapseAux]
    split
    · split
      · exact ih true
      · rw [NoDoubleWs, List.chain'_cons']
        refine ⟨?_, ih true⟩
        intro y hy
        intro hcontra
        have hnl := collapseAux_noLead rest
        cases hrest : collapseAux true rest with
        | nil => rw [hrest] at hy; simp at hy
        | cons d t =>
          rw [hrest] at hy
          simp at hy
          subst hy
          rw [hrest] at hnl
          have hd : isPySpace d = false := hnl
          exact absurd hcontra.2 (by simp [hd])
    · rename_i hns
      rw [NoDoubleWs, List.chain'_cons']
      refine ⟨?_, ih false⟩
      intro y _ hcontra
      simp at hns
      rw [hns] at hcontra
      simp at hcontra

theorem dropSpacesC_noLead : ∀ l : List Char, NoLeadWs (dropSpacesC l) := by
  intro l
  induction l with
  | nil => trivial
  | cons c rest ih =>
    simp only [dropSpacesC]
    split
    · exact ih
    · rename_i hns
      simpa [NoLeadWs] using hns

theorem noDoubleWs_suffix {x y : List Char} (h : NoDoubleWs y) (hs : x.IsSuffix y) :
    NoDoubleWs x := h.suffix hs

theorem noTrailWs_suffix {x y : List Char} (h : NoTrailWs y) (hs : x.IsSuffix y) :
    NoTrailWs x := by
  obtain ⟨a, rfl⟩ := hs
  by_cases hx : x = []
  · subst hx; trivial
  · exact noTrailWs_of_append h hx

theorem wsIsSpace_suffix {x y : List Char} (h : WsIsSpace y) (hs : x.IsSuffix y) :
    WsIsSpace x := by
  obtain ⟨a, rfl⟩ := hs
  exact wsIsSpace_of_append_right h

theorem noDoubleWs_reverse {l : List Char} (h : NoDoubleWs l) : NoDoubleWs l.reverse := by
  rw [NoDoubleWs, List.chain'_reverse]
  exact h.imp (fun _ _ hab hba => hab ⟨hba.2, hba.1⟩)

theorem wsIsSpace_reverse {l : List Char} (h : WsIsSpace l) : WsIsSpace l.reverse :=
  fun c hc => h c (List.mem_reverse.mp hc)

theorem cleanTextC_clean (t : List Char) :
    NoLeadWs (cleanTextC t) ∧ NoTrailWs (cleanTextC t) ∧
    NoDoubleWs (cleanTextC t) ∧ WsIsSpace (cleanTextC t) := by
  rw [cleanTextC, stripC]
  have hA1 : WsIsSpace (collapseWs t) := collapseAux_wsIsSpace t false
  have hA2 : NoDoubleWs (collapseWs t) := collapseAux_noDouble t false
  have hm1 : NoLeadWs (dropSpacesC (collapseWs t).reverse) :=
    dropSpacesC_noLead (collapseWs t).reverse
  have hmsuf := dropSpacesC_suffix (collapseWs t).reverse
  have hm2 : NoDoubleWs (dropSpacesC (collapseWs t).reverse) :=
    noDoubleWs_suffix (noDoubleWs_reverse hA2) hmsuf
  have hm3 : WsIsSpace (dropSpacesC (collapseWs t).reverse) :=
    wsIsSpace_suffix (wsIsSpace_reverse hA1) hmsuf
  have hr1 : NoTrailWs (dropSpacesC (collapseWs t).reverse).reverse := by
    rw [NoTrailWs, List.reverse_reverse]
    exact hm1
  have hr2 : NoDoubleWs (dropSpacesC (collapseWs t).reverse).reverse :=
    noDoubleWs_reverse hm2
  have hr3 : WsIsSpace (dropSpacesC (collapseWs t).reverse).reverse :=
    wsIsSpace_reverse hm3
  have hsuf := dropSpacesC_suffix (dropSpacesC (collapseWs t).reverse).reverse
  exact ⟨dropSpacesC_noLead _, noTrailWs_suffix hr1 hsuf,
    noDoubleWs_suffix hr2 hsuf, wsIsSpace_suffix hr3 hsuf⟩

theorem splitSentAux_tokens : ∀ (rest : List Char) (skipping : Bool) (cur : List Char),
    NoDoubleWs (cur.reverse ++ rest) →
    WsIsSpace (cur.reverse ++ rest) →
    NoTrailWs (cur.reverse ++ rest) →
    NoLeadWs cur.reverse →
    (skipping = true → cur = []) →
    (skipping = false → cur = [] → NoLeadWs rest) →
    ∀ tok ∈ splitSentAux skipping cur rest, CleanToken tok := by
  intro rest
  induction rest with
  | nil =>
    intro skipping cur hnd hws hnt hnl _ _ tok htok
    simp only [splitSentAux, List.mem_singleton] at htok
    subst htok
    exact ⟨hnl, by simpa using hnt, by simpa using hnd, by simpa using hws⟩
  | cons c rest ih =>
    intro skipping cur hnd hws hnt hnl hskip hstart tok htok
    have hsufr : rest.IsSuffix (cur.reverse ++ (c :: rest)) := ⟨cur.reverse ++ [c], by simp⟩
    simp only [splitSentAux] at htok
    split at htok
    · -- skipping: consume the delimiter run
      rename_i hsk
      have hc : cur = [] := hskip hsk
      subst hc
      split at htok
      · -- whitespace: keep skipping
        refine ih true [] ?_ ?_ ?_ trivial (fun _ => rfl) (fun h => absurd h (by simp))
          tok htok
        · simpa using noDoubleWs_suffix hnd hsufr
        · simpa using wsIsSpace_suffix hws hsufr
        · simpa using noTrailWs_suffix hnt hsufr
      · -- non-whitespace: start a new token with this character
        rename_i hcs
        refine ih false [c] ?_ ?_ ?_ ?_ (fun h => absurd h (by simp))
          (fun _ h => absurd h (by simp)) tok htok
        · simpa using hnd
        · simpa using hws
        · simpa using hnt
        · simpa [NoLeadWs] using hcs
    · -- inside a token
      rename_i hsk
      have hskf : skipping = false := by revert hsk; cases skipping <;> simp
      split at htok
      · -- delimiter: emit the token, then skip
        rename_i hdel
        rw [Bool.and_eq_true] at hdel
        rcases List.mem_cons.mp htok with htok | htok
        · subst htok
          refine ⟨hnl, ?_, ?_, ?_⟩
          · rw [NoTrailWs, List.reverse_reverse]
            cases cur with
            | nil => simp at hdel
            | cons p cur2 => exact isSentEnd_not_space hdel.2
          · exact List.Chain'.left_of_append hnd
          · exact wsIsSpace_of_append_left hws
        · refine ih true [] ?_ ?_ ?_ trivial (fun _ => rfl) (fun h => absurd h (by simp))
            tok htok
          · simpa using noDoubleWs_suffix hnd hsufr
          · simpa using wsIsSpace_suffix hws hsufr
          · simpa using noTrailWs_suffix hnt hsufr
      · -- ordinary character: push it on the token
        have hre : (c :: cur).reverse ++ rest = cur.reverse ++ (c :: rest) := by simp
        refine ih false (c :: cur) ?_ ?_ ?_ ?_ (fun h => absurd h (by simp))
          (fun _ h => absurd h (by simp)) tok htok
        · rw [hre]; exact hnd
        · rw [hre]; exact hws
        · rw [hre]; exact hnt
        · cases hcc : cur with
          | nil =>
            have hlead : NoLeadWs (c :: rest) := hstart hskf hcc
            simpa [NoLeadWs] using (hlead : isPySpace c = false)
          | cons p cur2 =>
            rw [List.reverse_cons]
            refine noLeadWs_append_left ?_ (by simp [hcc])
            rw [← hcc]
            exact hnl

theorem joinTail_eq_space_joinSp (W : List (List Char)) (h : W ≠ []) :
    joinTail W = ' ' :: joinSp W := by
  cases W with
  | nil => exact absurd rfl h
  | cons w ws => simp [joinTail, joinSp]

theorem pyWordsAux_join : ∀ (rest cur : List Char),
    NoWsTok cur →
    (cur = [] → NoLeadWs rest) →
    NoTrailWs (cur.reverse ++ rest) →
    NoDoubleWs (cur.reverse ++ rest) →
    WsIsSpace (cur.reverse ++ rest) →
    joinSp (pyWordsAux cur rest) = cur.reverse ++ rest := by
  intro rest
  induction rest with
  | nil =>
    intro cur hcur h1 hNT hND hWS
    simp only [pyWordsAux]
    split
    · rename_i he
      have hc : cur = [] := by simpa using he
      simp [hc, joinSp]
    · simp [joinSp, joinTail]
  | cons c rest ih =>
    intro cur hcur h1 hNT hND hWS
    have hsufr : rest.IsSuffix (cur.reverse ++ (c :: rest)) := ⟨cur.reverse ++ [c], by simp⟩
    simp only [pyWordsAux]
    split
    · rename_i hcs
      have hcne : cur ≠ [] := by
        intro h
        subst h
        have hfalse : isPySpace c = false := h1 rfl
        exact absurd hcs (by simp [hfalse])
      split
      · rename_i he
        exact absurd (by simpa using he) hcne
      · have hcsp : c = ' ' := hWS c (by simp) hcs
        have hrne : rest ≠ [] := by
          intro h
          subst h
          have h2 := noTrailWs_of_append hNT (by simp)
          have h3 : isPySpace c = false := by simpa [NoTrailWs, NoLeadWs] using h2
          exact absurd hcs (by simp [h3])
        have hnlrest : NoLeadWs rest := by
          have hnd2 : NoDoubleWs (c :: rest) :=
            noDoubleWs_suffix hND ⟨cur.reverse, rfl⟩
          cases hr : rest with
          | nil => trivial
          | cons d t =>
            rw [hr] at hnd2
            rw [NoDoubleWs, List.chain'_cons'] at hnd2
            have hrel := hnd2.1 d (by simp)
            simp only [NoLeadWs]
            by_cases hd : isPySpace d = true
            · exact absurd ⟨hcs, hd⟩ hrel
            · simpa using hd
        have hIH := ih [] (fun x hx => absurd hx (by simp)) (fun _ => hnlrest)
          (by simpa using noTrailWs_suffix hNT hsufr)
          (by simpa using noDoubleWs_suffix hND hsufr)
          (by simpa using wsIsSpace_suffix hWS hsufr)
        have hWne : pyWordsAux [] rest ≠ [] := by
          intro h
          rw [h] at hIH
          exact hrne (by simpa [joinSp] using hIH.symm)
        show joinSp (cur.reverse :: pyWordsAux [] rest) = cur.reverse ++ c :: rest
        have hjs : joinSp (cur.reverse :: pyWordsAux [] rest) =
            cur.reverse ++ joinTail (pyWordsAux [] rest) := rfl
        rw [hjs, joinTail_eq_space_joinSp _ hWne, hIH, hcsp]
        simp
    · rename_i hcs
      have hre : (c :: cur).reverse ++ rest = cur.reverse ++ (c :: rest) := by simp
      have hcur2 : NoWsTok (c :: cur) := by
        intro x hx
        rcases List.mem_cons.mp hx with hx | hx
        · subst hx; simpa using hcs
        · exact hcur x hx
      have hIH := ih (c :: cur) hcur2 (fun h => absurd h (by simp))
        (by rw [hre]; exact hNT) (by rw [hre]; exact hND) (by rw [hre]; exact hWS)
      rw [hIH]
      exact hre

/-- On a clean token, Python's `' '.join(tok.split())` is the identity. -/
theorem cleanToken_join (tok : List Char) (h : CleanToken tok) :
    joinSp (pyWordsC tok) = tok := by
  obtain ⟨h1, h2, h3, h4⟩ := h
  have := pyWordsAux_join tok [] (fun x hx => absurd hx (by simp)) (fun _ => h1)
    (by simpa using h2) (by simpa using h3) (by simpa using h4)
  simpa [pyWordsC] using this

/-- Every sentence produced by the cleaning and splitting pipeline satisfies
`joinLen (words s) = s.length`. -/
theorem sentences_norm (t : List Char) :
    ∀ s ∈ splitSentC (cleanTextC t), joinLen (pyWordsC s) = s.length := by
  intro s hs
  obtain ⟨hc1, hc2, hc3, hc4⟩ := cleanTextC_clean t
  have htok := splitSentAux_tokens (cleanTextC t) false []
    (by simpa using hc3) (by simpa using hc4) (by simpa using hc2) trivial
    (fun h => by simp at h) (fun _ _ => hc1) s hs
  rw [joinLen, cleanToken_join s htok]

/-! ### Exactness of the tracked length (claim C7) -/

/-- The tracked `current_length` equals the joined length of the
accumulator. -/
def ExactSt (st : ChunkSt) : Prop := st.current_length = joinLen st.current_chunk

theorem pieceLoop_exact (cs : Nat) (allwords : List (List Char)) :
    ∀ (rest chunks piece : List (List Char)) (pieceLen : Nat),
    ((pieceLen = joinLen piece ∧ (piece = [] → rest = allwords)) ∨
     (piece ≠ [] ∧ pieceLen = joinLen piece + 1 ∧ joinLen piece ≤ cs ∧
       piece ++ rest = allwords)) →
    ((pieceLoop cs chunks piece pieceLen rest).2.2 =
        joinLen (pieceLoop cs chunks piece pieceLen rest).2.1 ∨
     ((pieceLoop cs chunks piece pieceLen rest).2.1 = allwords ∧
      joinLen (pieceLoop cs chunks piece pieceLen rest).2.1 ≤ cs)) := by
  have happ : ∀ (p : List (List Char)) (v : List Char),
      (if (p ++ [v]).isEmpty = true then (0 : Nat) else 1) = 1 := by
    intro p v
    simp
  intro rest
  induction rest with
  | nil =>
    intro chunks piece pieceLen hinv
    rcases hinv with ⟨he, _⟩ | ⟨_, _, hle, hall⟩
    · exact Or.inl he
    · exact Or.inr ⟨by simpa using hall, hle⟩
  | cons w ws ih =>
    intro chunks piece pieceLen hinv
    simp only [pieceLoop, happ]
    split
    · rename_i hemp
      have hpe : piece = [] := by simpa using hemp
      subst hpe
      rcases hinv with ⟨he, hall⟩ | ⟨hne, _, _, _⟩
      swap
      · exact absurd rfl hne
      have hall2 : w :: ws = allwords := hall rfl
      have hl0 : pieceLen = 0 := by simpa [joinLen_nil] using he
      subst hl0
      split
      · exact ih _ [w] w.length (Or.inl ⟨(joinLen_single w).symm, fun h => by simp at h⟩)
      · rename_i hg
        refine ih _ ([] ++ [w]) (0 + w.length + 1) (Or.inr ⟨by simp, ?_, ?_, ?_⟩)
        · simp [joinLen_single]
        · simp only [List.nil_append, joinLen_single]
          omega
        · simpa using hall2
    · rename_i hemp
      have hpe : piece ≠ [] := by simpa using hemp
      split
      · exact ih _ [w] w.length (Or.inl ⟨(joinLen_single w).symm, fun h => by simp at h⟩)
      · rename_i hg
        rcases hinv with ⟨he, _⟩ | ⟨_, hlen, hle, hall⟩
        · refine ih _ (piece ++ [w]) (pieceLen + w.length + 1)
            (Or.inl ⟨?_, fun h => by simp at h⟩)
          rw [joinLen_append_single]
          simp only [hpe, if_neg, not_false_iff]
          omega
        · refine ih _ (piece ++ [w]) (pieceLen + w.length + 1)
            (Or.inr ⟨by simp, ?_, ?_, ?_⟩)
          · rw [joinLen_append_single]
            simp only [hpe, if_neg, not_false_iff]
            omega
          · rw [joinLen_append_single]
            simp only [hpe, if_neg, not_false_iff]
            omega
          · rw [← hall]
            simp

theorem flushCur_exact (st : ChunkSt) (h : ExactSt st) : ExactSt (flushCur st) := by
  rw [flushCur]
  split
  · exact h
  · show (0 : Nat) = joinLen []
    rw [joinLen_nil]

theorem oversizedStep_exact (cs : Nat) (st : ChunkSt) (s : List Char)
    (hex : ExactSt st) (hnorm : joinLen (pyWordsC s) = s.length) (hover : s.length > cs) :
    ExactSt (oversizedStep cs st s) := by
  have hfe := flushCur_exact st hex
  have hpl := pieceLoop_exact cs (pyWordsC s) (pyWordsC s) (flushCur st).chunks [] 0
    (Or.inl ⟨by rw [joinLen_nil], fun _ => rfl⟩)
  simp only [oversizedStep]
  split
  · exact hfe
  · rcases hpl with he | ⟨hall, hle⟩
    · exact he
    · rw [hall, hnorm] at hle
      exact absurd hle (by omega)

theorem overflowStep_exact (cs co : Nat) (st : ChunkSt) (s : List Char) :
    ExactSt (overflowStep cs co st s) := by
  simp only [overflowStep]
  split
  · exact (joinLen_eq_sum _ (by simp)).symm
  · exact (joinLen_single s).symm

theorem appendStep_exact (st : ChunkSt) (s : List Char) (hex : ExactSt st) :
    ExactSt (appendStep st s) := by
  obtain ⟨chs, cur, clen⟩ := st
  have hex2 : clen = joinLen cur := hex
  simp only [appendStep]
  show clen + s.length + (if (cur ++ [s]).length > 1 then 1 else 0) = joinLen (cur ++ [s])
  rw [joinLen_append_single]
  by_cases hemp : cur = []
  · subst hemp
    have h1 : ¬(([] ++ [s] : List (List Char)).length > 1) := by simp
    rw [if_neg h1, if_pos rfl, joinLen_nil]
    rw [joinLen_nil] at hex2
    omega
  · have h1 : (cur ++ [s]).length > 1 := by
      cases cur with
      | nil => exact absurd rfl hemp
      | cons a t => simp
    rw [if_pos h1, if_neg hemp]
    omega

theorem chunkStep_exact (cs co : Nat) (st : ChunkSt) (s : List Char)
    (hex : ExactSt st) (hnorm : joinLen (pyWordsC s) = s.length) :
    ExactSt (chunkStep cs co st s) := by
  rw [chunkStep]
  by_cases h1 : s.length > cs
  · rw [if_pos h1]
    exact oversizedStep_exact cs st s hex hnorm h1
  · rw [if_neg h1]
    by_cases h2 : st.current_length + s.length +
        (if st.current_chunk.isEmpty then 0 else 1) > cs
    · rw [if_pos h2]
      exact overflowStep_exact cs co st s
    · rw [if_neg h2]
      exact appendStep_exact st s hex

theorem chunkFoldAux_exact (cs co : Nat) :
    ∀ (sents : List (List Char)) (st0 : ChunkSt),
    (∀ s ∈ sents, joinLen (pyWordsC s) = s.length) → ExactSt st0 →
    ExactSt (sents.foldl (chunkStep cs co) st0) := by
  intro sents
  induction sents with
  | nil =>
    intro st0 _ h
    exact h
  | cons s ss ih =>
    intro st0 hnorm hex
    rw [List.foldl_cons]
    exact ih _ (fun v hv => hnorm v (List.mem_cons_of_mem _ hv))
      (chunkStep_exact cs co st0 s hex (hnorm s (by simp)))

theorem chunkFold_exact (cs co : Nat) (text : List Char) :
    ExactSt (chunkFold cs co (splitSentC (cleanTextC text))) :=
  chunkFoldAux_exact cs co _ _ (sentences_norm text) (by rw [ExactSt, joinLen_nil])

/-- Claim C7: for every input text, the final trailing accumulator of
`chunk_text` is emitted as the last chunk exactly when its joined length is
at most `chunk_size`: a non-empty trailing accumulator whose joined length is
at most `chunk_size` is always appended as the final chunk, and one whose
joined length exceeds `chunk_size` is silently dropped, with no error. -/
theorem C7_trailing_accumulator (cs co : Nat) (text : List Char)
    (hne : stripC text ≠ []) :
    chunk_text cs co text =
      (if (chunkFold cs co (splitSentC (cleanTextC text))).current_chunk ≠ [] ∧
          (joinSp (chunkFold cs co (splitSentC (cleanTextC text))).current_chunk).length ≤ cs
        then (chunkFold cs co (splitSentC (cleanTextC text))).chunks ++
          [joinSp (chunkFold cs co (splitSentC (cleanTextC text))).current_chunk]
        else (chunkFold cs co (splitSentC (cleanTextC text))).chunks) := by
  have hex : (chunkFold cs co (splitSentC (cleanTextC text))).current_length =
      joinLen (chunkFold cs co (splitSentC (cleanTextC text))).current_chunk :=
    chunkFold_exact cs co text
  rw [chunk_text, if_neg hne, finalChunks, hex]
  rfl

theorem C7_trailing_accumulator_witness :
    chunk_text 10 5 (strL "Aaa bb. Hi. Cc ddd ee.") = [strL "Aaa bb.", strL "Hi."] := by
  rw [C7_trailing_accumulator 10 5 (strL "Aaa bb. Hi. Cc ddd ee.") (by decide)]
  decide

/-! ### Post processing and ingestion (`text_processing.py` lines 123-152,
`ingestion.py`)

Strings stay `List Char`; `Str` abbreviates that.  Python values that may be
either `str` or `int` (the metadata values) are modelled by `PyVal`. -/

/-- Model of a Python string. -/
abbrev Str := List Char

/-- Decimal rendering worker; the fuel argument only drives structural
recursion (`fuel = n` always suffices). -/
def natToDecAux : Nat → Nat → Str → Str
  | 0, n, acc => Char.ofNat (48 + n % 10) :: acc
  | fuel + 1, n, acc =>
    if n < 10 then Char.ofNat (48 + n % 10) :: acc
    else natToDecAux fuel (n / 10) (Char.ofNat (48 + n % 10) :: acc)

/-- Python `str(n)` for a non-negative integer: decimal digits. -/
def natToDec (n : Nat) : Str := natToDecAux n n []

/-- A metadata value: a Python `str` or `int`. -/
inductive PyVal where
  | pys : Str → PyVal
  | pyi : Nat → PyVal
deriving DecidableEq, Repr

/-- Python `str(v)` on a metadata value. -/
def pyStr : PyVal → Str
  | .pys s => s
  | .pyi n => natToDec n

/-- A fetched document (`post` dict built in `fetch_markdown_content`). -/
structure Post where
  id : Str
  name : Str
  content : Str
  url : Str
deriving DecidableEq, Repr

/-- A processed chunk record (`process_post` output). -/
structure ProcChunk where
  id : Str
  content : Str
  metadata : List (Str × PyVal)
deriving DecidableEq, Repr

/-- Python dict lookup on an association list where later entries override
earlier ones (dict literal / assignment semantics): the last binding of the
key wins. -/
def dGet {α : Type} (m : List (Str × α)) (k : Str) : Option α :=
  match m with
  | [] => none
  | (k2, v) :: rest =>
    match dGet rest k with
    | some w => some w
    | none => if k2 = k then some v else none

/-- The chunk record built for index `i` (lines 139-149 of
`text_processing.py`); `extract` stands for `_extract_metadata`, whose values
are strings by construction (lines 24-33). -/
def procChunkOf (extract : Str → List (Str × Str)) (post : Post)
    (chunks : List Str) (i : Nat) : ProcChunk :=
  ⟨post.id ++ strL "_chunk_" ++ natToDec i,
   chunks.getD i [],
   (extract post.content).map (fun kv => (kv.1, PyVal.pys kv.2)) ++
     [(strL "post_name", PyVal.pys post.name),
      (strL "url", PyVal.pys post.url),
      (strL "chunk_index", PyVal.pyi i),
      (strL "total_chunks", PyVal.pyi chunks.length)]⟩

/-- `TextProcessor.process_post` (lines 123-152 of `text_processing.py`);
`extract` and `removeFM` model the external `frontmatter`-based helpers
`_extract_metadata` and `_remove_frontmatter`. -/
def process_post (cs co : Nat) (extract : Str → List (Str × Str))
    (removeFM : Str → Str) (post : Post) : List ProcChunk :=
  if stripC post.content = [] then []
  else
    (List.range (chunk_text cs co (removeFM post.content)).length).map
      (procChunkOf extract post (chunk_text cs co (removeFM post.content)))

/-- A record stored in the ChromaDB collection. -/
structure StoredChunk where
  id : Str
  document : Str
  metadata : List (Str × PyVal)
deriving DecidableEq, Repr

/-- Python `str(metadata.get(k, ""))`. -/
def pyStrOf : Option PyVal → Str
  | none => []
  | some v => pyStr v

/-- The metadata dict passed to `collection.upsert` (lines 198-205 of
`ingestion.py`): the chunk metadata spread, with `url` passed through
unconverted and the other four keys re-rendered with `str(...)`. -/
def upsertMeta (m : List (Str × PyVal)) : List (Str × PyVal) :=
  m ++ [(strL "url", (dGet m (strL "url")).getD (PyVal.pys [])),
        (strL "post_name", PyVal.pys (pyStrOf (dGet m (strL "post_name")))),
        (strL "chunk_index", PyVal.pys (pyStrOf (dGet m (strL "chunk_index")))),
        (strL "total_chunks", PyVal.pys (pyStrOf (dGet m (strL "total_chunks")))),
        (strL "post_id", PyVal.pys (pyStrOf (dGet m (strL "post_id"))))]

/-- The stored record for one chunk of an upsert batch. -/
def toStored (c : ProcChunk) : StoredChunk := ⟨c.id, c.content, upsertMeta c.metadata⟩

/-- ChromaDB upsert of a single record: replace the record with the same id,
or append. -/
def upsertOne (store : List StoredChunk) (c : StoredChunk) : List StoredChunk :=
  if store.any (fun s => s.id == c.id) then
    store.map (fun s => if s.id == c.id then c else s)
  else store ++ [c]

/-- ChromaDB upsert of a batch. -/
def upsertBatch (store : List StoredChunk) (batch : List StoredChunk) :
    List StoredChunk :=
  batch.foldl upsertOne store

/-- Split a list into consecutive batches of `n` (line 191 of `ingestion.py`,
`range(0, total, batch_size)` with `batch_size = 100`); the fuel argument
only drives structural recursion (`fuel = l.length` suffices for `n ≥ 1`). -/
def batchesOfAux {α : Type} (n : Nat) : Nat → List α → List (List α)
  | _, [] => []
  | 0, _ :: _ => []
  | fuel + 1, x :: xs => ((x :: xs).take n) :: batchesOfAux n fuel ((x :: xs).drop n)

/-- The upsert batches of a chunk list. -/
def batchesOf {α : Type} (n : Nat) (l : List α) : List (List α) :=
  batchesOfAux n l.length l

/-- `ProgressState`. -/
structure Progress where
  stage : Str
  current : Nat
  total : Nat
  message : Str
deriving DecidableEq, Repr

/-- `ContentIngester._get_existing_post_ids` (lines 120-152 of
`ingestion.py`): read all stored metadata and collect the `post_id` values;
any exception from the count or get call yields the empty set. -/
def getExistingPostIds (countR : Except Str Nat)
    (getR : Except Str (List (Option (List (Str × PyVal))))) : List PyVal :=
  match countR with
  | .error _ => []
  | .ok n =>
    if n = 0 then []
    else
      match getR with
      | .error _ => []
      | .ok metas =>
        if metas.isEmpty then []
        else
          (metas.filterMap (fun m? =>
            match m? with
            | none => none
            | some m =>
              if m.isEmpty then none
              else
                match dGet m (strL "post_id") with
                | some v => if v = PyVal.pys (strL "None") then none else some v
                | none => none)).dedup

/-- The collection count of a modelled store. -/
def storeCount (store : List StoredChunk) : Except Str Nat := .ok store.length

/-- The collection `get(include=["metadatas"])` of a modelled store. -/
def storeMetas (store : List StoredChunk) :
    Except Str (List (Option (List (Str × PyVal)))) :=
  .ok (store.map (fun c => some c.metadata))

/-- Existing post ids read back from a store whose count and get calls
succeed. -/
def existingIdsOfStore (store : List StoredChunk) : List PyVal :=
  getExistingPostIds (storeCount store) (storeMetas store)

/-- Chunks of one post with the `post_id` tag added (lines 174-179 of
`ingestion.py`). -/
def taggedChunks (cs co : Nat) (extract : Str → List (Str × Str))
    (removeFM : Str → Str) (p : Post) : List ProcChunk :=
  (process_post cs co extract removeFM p).map
    (fun ch => ⟨ch.id, ch.content, ch.metadata ++ [(strL "post_id", PyVal.pys p.id)]⟩)

/-- The per-post processing loop (lines 167-181 of `ingestion.py`): skip
posts whose id is already present, process the rest, tracking progress. -/
def procPosts (cs co : Nat) (extract : Str → List (Str × Str))
    (removeFM : Str → Str) (existing : List PyVal) :
    Nat → Nat → List ProcChunk → Progress → List Post → List ProcChunk × Progress
  | _, _, acc, pr, [] => (acc, pr)
  | i, total, acc, _, p :: rest =>
    if PyVal.pys p.id ∈ existing then
      procPosts cs co extract removeFM existing (i + 1) total acc
        ⟨strL "processing", i + 1, total,
         strL "Skipping already processed post: " ++ p.name⟩ rest
    else
      procPosts cs co extract removeFM existing (i + 1) total
        (acc ++ taggedChunks cs co extract removeFM p)
        ⟨strL "processing", i + 1, total,
         strL "Processing new post: " ++ p.name⟩ rest

/-- The progress message of the batch-storing loop (line 193). -/
def storingMsg (off len : Nat) : Str :=
  strL "Storing chunks " ++ natToDec (off + 1) ++ strL "-" ++ natToDec (off + len)

/-- The batch-storing loop (lines 190-206 of `ingestion.py`): upsert each
batch in order; the first failing upsert is re-raised (line 212).  Returns
the outcome, the store after the applied upserts, the list of upsert calls
performed, and the final progress. -/
def storeBatches (upsertOp : Nat → Except Str Unit) :
    List StoredChunk → Nat → Nat → Nat → Progress → List (List ProcChunk) →
    Except Str Unit × List StoredChunk × List (List StoredChunk) × Progress
  | store, _, _, _, pr, [] => (.ok (), store, [], pr)
  | store, off, total, k, _, b :: bs =>
    match upsertOp k with
    | .error e =>
      (.error e, store, [b.map toStored],
       ⟨strL "storing", off + b.length, total, storingMsg off b.length⟩)
    | .ok _ =>
      match storeBatches upsertOp (upsertBatch store (b.map toStored))
          (off + b.length) total (k + 1)
          ⟨strL "storing", off + b.length, total, storingMsg off b.length⟩ bs with
      | (out, st2, calls, pr2) => (out, st2, (b.map toStored) :: calls, pr2)

/-- The output of `process_and_store_content`. -/
structure PSOut where
  outcome : Except Str Nat
  store : List StoredChunk
  calls : List (List StoredChunk)
  progress : Progress
deriving Repr

/-- The storing half of `process_and_store_content` (lines 183-217 of
`ingestion.py`), given the accumulated chunks. -/
def psStore (upsertOp : Nat → Except Str Unit) (store : List StoredChunk)
    (all_chunks : List ProcChunk) : PSOut :=
  if all_chunks.isEmpty then
    ⟨.ok 0, store, [], ⟨strL "complete", 0, 0, strL "No new content to process"⟩⟩
  else
    match storeBatches upsertOp store 0 all_chunks.length 0
        ⟨strL "storing", 0, all_chunks.length, strL "Storing chunks in ChromaDB"⟩
        (batchesOf 100 all_chunks) with
    | (.error e, st2, calls, pr2) => ⟨.error e, st2, calls, pr2⟩
    | (.ok _, st2, calls, _) =>
      ⟨.ok all_chunks.length, st2, calls,
       ⟨strL "complete", all_chunks.length, all_chunks.length,
        strL "Successfully stored all chunks"⟩⟩

/-- `ContentIngester.process_and_store_content` (lines 154-217 of
`ingestion.py`). -/
def process_and_store_content (cs co : Nat) (extract : Str → List (Str × Str))
    (removeFM : Str → Str) (countR : Except Str Nat)
    (getR : Except Str (List (Option (List (Str × PyVal)))))
    (upsertOp : Nat → Except Str Unit) (store : List StoredChunk)
    (posts : List Post) : PSOut :=
  psStore upsertOp store
    (procPosts cs co extract removeFM (getExistingPostIds countR getR) 0
      posts.length []
      ⟨strL "processing", 0, posts.length, strL "Processing posts into chunks"⟩
      posts).1

/-- A directory-listing entry from the content source
(`response.json()` items in `fetch_markdown_content`). -/
structure FileEntry where
  name : Str
  ftype : Str
  sha : Str
  download_url : Str
  html_url : Str
deriving DecidableEq, Repr

/-- Matches `.*\.md$` after the date prefix: any run of non-newline
characters ending in `.md` (Python `$` also matches just before a single
final newline). -/
def mdTail : Str → Bool
  | '.' :: 'm' :: 'd' :: [] => true
  | '.' :: 'm' :: 'd' :: '\n' :: [] => true
  | c :: rest => (c != '\n') && mdTail rest
  | _ => false

/-- `ContentIngester._is_post_file`: the regex
`^\d{4}-\d{2}-\d{2}-.*\.md$` (lines 53-56 of `ingestion.py`). -/
def is_post_file (s : Str) : Bool :=
  match s with
  | a :: b :: c :: d :: '-' :: e :: f :: '-' :: g :: h :: '-' :: rest =>
    a.isDigit && b.isDigit && c.isDigit && d.isDigit && e.isDigit && f.isDigit &&
      g.isDigit && h.isDigit && mdTail rest
  | _ => false

/-- Python `name.split("-")` (split at every dash, keeping empty parts). -/
def splitDashAux (cur : Str) : Str → List Str
  | [] => [cur.reverse]
  | c :: rest =>
    if c = '-' then cur.reverse :: splitDashAux [] rest
    else splitDashAux (c :: cur) rest

/-- Python `name.split("-")`. -/
def splitDash (l : Str) : List Str := splitDashAux [] l

/-- The sort key `x["name"].split("-")[:3]` (line 84 of `ingestion.py`). -/
def fkey (f : FileEntry) : List Str := (splitDash f.name).take 3

/-- Python string `<` (lexicographic on characters). -/
def lexLtB : Str → Str → Bool
  | [], [] => false
  | [], _ :: _ => true
  | _ :: _, [] => false
  | a :: as, b :: bs => if a < b then true else if b < a then false else lexLtB as bs

/-- Python list-of-strings `<` (lexicographic with string comparison). -/
def keyLtB : List Str → List Str → Bool
  | [], [] => false
  | [], _ :: _ => true
  | _ :: _, [] => false
  | a :: as, b :: bs =>
    if lexLtB a b then true else if lexLtB b a then false else keyLtB as bs

/-- The before-relation of `files.sort(key=..., reverse=True)`: `f` may come
before `g` when its key is not smaller.  Python list sort is stable, so the
sorted list equals a stable insertion sort under this relation. -/
def fileGe (f g : FileEntry) : Prop := keyLtB (fkey f) (fkey g) = false

instance : DecidableRel fileGe := fun f g => instDecidableEqBool _ _

/-- The filter of post files (line 79 of `ingestion.py`). -/
def postFilter (entries : List FileEntry) : List FileEntry :=
  entries.filter (fun f => f.ftype == strL "file" && is_post_file f.name)

/-- Filter and date-sort the listing (lines 79-84 of `ingestion.py`). -/
def sortedFiles (entries : List FileEntry) : List FileEntry :=
  List.insertionSort fileGe (postFilter entries)

/-- Lines 79-92 of `ingestion.py`: filter, sort newest-first, truncate.  With
`most_recent_only` the log line `files[0]['name']` raises `IndexError` when
the truncated list is empty. -/
def selectPostFiles (mostRecentOnly : Bool) (numPosts : Option Nat)
    (entries : List FileEntry) : Except Str (List FileEntry) :=
  if mostRecentOnly then
    match (sortedFiles entries).take 1 with
    | [] => .error (strL "list index out of range")
    | f :: rest => .ok (f :: rest)
  else
    match numPosts with
    | some n => .ok ((sortedFiles entries).take n)
    | none => .ok (sortedFiles entries)

/-- The download loop of `fetch_markdown_content` (lines 98-116), building
`post` records; a failing download aborts the whole call. -/
def downloadPosts (download : FileEntry → Except Str Str) :
    Nat → Nat → List Post → Progress → List FileEntry →
    Except Str (List Post) × Progress
  | _, _, acc, pr, [] => (.ok acc, pr)
  | i, total, acc, _, f :: rest =>
    match download f with
    | .error e =>
      (.error e, ⟨strL "downloading", i, total, strL "Downloading: " ++ f.name⟩)
    | .ok content =>
      downloadPosts download (i + 1) total (acc ++ [⟨f.sha, f.name, content, f.html_url⟩])
        ⟨strL "downloading", i, total, strL "Downloading: " ++ f.name⟩ rest

/-- `ContentIngester.fetch_markdown_content` (lines 58-118 of
`ingestion.py`); the directory listing and the per-file downloads are the
external network calls. -/
def fetchMarkdown (listingR : Except Str (List FileEntry))
    (download : FileEntry → Except Str Str) (mostRecentOnly : Bool)
    (numPosts : Option Nat) (pr : Progress) : Except Str (List Post) × Progress :=
  match listingR with
  | .error e => (.error e, pr)
  | .ok entries =>
    match selectPostFiles mostRecentOnly numPosts entries with
    | .error e => (.error e, pr)
    | .ok files =>
      downloadPosts download 1 files.length []
        ⟨strL "downloading", 0, files.length, strL "Downloading markdown files"⟩ files

/-- The structured result of `update_content`. -/
structure ResultDict where
  status : Str
  message : Str
  progress : Progress
deriving DecidableEq, Repr

/-- The observable outcome of one `update_content` run: its result dict, the
store after the run, and the upsert calls performed. -/
structure UCOut where
  result : ResultDict
  store : List StoredChunk
  calls : List (List StoredChunk)
deriving DecidableEq, Repr

/-- The initial progress reset (line 228 of `ingestion.py`). -/
def startProgress : Progress := ⟨strL "starting", 0, 0, strL "Starting content update"⟩

/-- `ContentIngester.update_content` (lines 219-250 of `ingestion.py`): the
try block runs fetch then process-and-store; any exception is converted into
an error result dict carrying the exception message. -/
def update_content (cs co : Nat) (extract : Str → List (Str × Str))
    (removeFM : Str → Str) (listingR : Except Str (List FileEntry))
    (download : FileEntry → Except Str Str) (countR : Except Str Nat)
    (getR : Except Str (List (Option (List (Str × PyVal)))))
    (upsertOp : Nat → Except Str Unit) (store : List StoredChunk)
    (mostRecentOnly : Bool) (numPosts : Option Nat) : UCOut :=
  match fetchMarkdown listingR download mostRecentOnly numPosts startProgress with
  | (.error e, pr) =>
    ⟨⟨strL "error", strL "Error during content update: " ++ e, pr⟩, store, []⟩
  | (.ok posts, _) =>
    match process_and_store_content cs co extract removeFM countR getR upsertOp
        store posts with
    | ⟨.error e, st2, calls, pr2⟩ =>
      ⟨⟨strL "error", strL "Error during content update: " ++ e, pr2⟩, st2, calls⟩
    | ⟨.ok n, st2, calls, pr2⟩ =>
      ⟨⟨strL "success",
        strL "Updated " ++ natToDec posts.length ++ strL " posts with " ++
          natToDec n ++ strL " chunks", pr2⟩, st2, calls⟩

/-- One ingestion run against a store whose count/get/upsert calls all
succeed (the reads derived from the store itself). -/
def updateRun (cs co : Nat) (extract : Str → List (Str × Str))
    (removeFM : Str → Str) (listingR : Except Str (List FileEntry))
    (download : FileEntry → Except Str Str) (mostRecentOnly : Bool)
    (numPosts : Option Nat) (store : List StoredChunk) : UCOut :=
  update_content cs co extract removeFM listingR download
    (storeCount store) (storeMetas store) (fun _ => .ok ()) store
    mostRecentOnly numPosts

/-! ### Dict and decimal lemmas -/

theorem dGet_append {α : Type} (a b : List (Str × α)) (k : Str) :
    dGet (a ++ b) k =
      (match dGet b k with
       | some w => some w
       | none => dGet a k) := by
  induction a with
  | nil =>
    simp only [List.nil_append]
    cases h : dGet b k <;> simp [h, dGet]
  | cons p rest ih =>
    obtain ⟨k2, v⟩ := p
    rw [List.cons_append]
    simp only [dGet]
    rw [ih]
    cases h : dGet b k <;> cases h2 : dGet rest k <;> simp [h, h2]

theorem dGet_map_pys (l : List (Str × Str)) (k : Str) :
    dGet (l.map (fun kv => (kv.1, PyVal.pys kv.2))) k = (dGet l k).map PyVal.pys := by
  induction l with
  | nil => rfl
  | cons p rest ih =>
    obtain ⟨k2, v⟩ := p
    simp only [List.map_cons, dGet, ih]
    cases h : dGet rest k <;> simp [h] <;> split <;> simp

theorem digit_ne_underscore : ∀ m : Nat, m < 10 → Char.ofNat (48 + m) ≠ '_' := by
  decide

theorem natToDecAux_ne_underscore :
    ∀ (fuel n : Nat) (acc : Str), (∀ c ∈ acc, c ≠ '_') →
    ∀ c ∈ natToDecAux fuel n acc, c ≠ '_' := by
  intro fuel
  induction fuel with
  | zero =>
    intro n acc hacc c hc
    simp only [natToDecAux] at hc
    rcases List.mem_cons.mp hc with hc | hc
    · subst hc
      exact digit_ne_underscore _ (Nat.mod_lt _ (by omega))
    · exact hacc c hc
  | succ fuel ih =>
    intro n acc hacc c hc
    simp only [natToDecAux] at hc
    split at hc
    · rcases List.mem_cons.mp hc with hc | hc
      · subst hc
        exact digit_ne_underscore _ (Nat.mod_lt _ (by omega))
      · exact hacc c hc
    · refine ih _ _ ?_ c hc
      intro d hd
      rcases List.mem_cons.mp hd with hd | hd
      · subst hd
        exact digit_ne_underscore _ (Nat.mod_lt _ (by omega))
      · exact hacc d hd

theorem natToDec_ne_underscore (n : Nat) : ∀ c ∈ natToDec n, c ≠ '_' :=
  natToDecAux_ne_underscore n n [] (by intro c hc; simp at hc)

/-! ### Claim theorems for the Post Processor (C4) -/

/-- Claim C4 counterexample: the single chunk record that `process_post`
builds for a simple post carries `chunk_index` as the integer `0`, not as a
string; the numeric fields are not rendered as strings when records leave
this component. -/
theorem C4_counterexample :
    (process_post 500 100 (fun _ => []) (fun c => c)
        ⟨strL "sha1", strL "p.md", strL "Hello world.", strL "u"⟩).map
      (fun ch => dGet ch.metadata (strL "chunk_index")) = [some (PyVal.pyi 0)] ∧
    ∀ s : Str, PyVal.pyi 0 ≠ PyVal.pys s := by
  refine ⟨by decide, ?_⟩
  intro s h
  exact PyVal.noConfusion h

theorem dGet_upsertMeta_post_id (m : List (Str × PyVal)) :
    dGet (upsertMeta m) (strL "post_id") =
      some (PyVal.pys (pyStrOf (dGet m (strL "post_id")))) := by
  rw [upsertMeta, dGet_append]
  simp [dGet]

theorem dGet_upsertMeta_total (m : List (Str × PyVal)) :
    dGet (upsertMeta m) (strL "total_chunks") =
      some (PyVal.pys (pyStrOf (dGet m (strL "total_chunks")))) := by
  rw [upsertMeta, dGet_append]
  simp [dGet, eq_false (by decide : ¬ (strL "post_id" = strL "total_chunks"))]

theorem dGet_upsertMeta_chunk_index (m : List (Str × PyVal)) :
    dGet (upsertMeta m) (strL "chunk_index") =
      some (PyVal.pys (pyStrOf (dGet m (strL "chunk_index")))) := by
  rw [upsertMeta, dGet_append]
  simp [dGet, eq_false (by decide : ¬ (strL "post_id" = strL "chunk_index")),
    eq_false (by decide : ¬ (strL "total_chunks" = strL "chunk_index"))]

theorem dGet_upsertMeta_post_name (m : List (Str × PyVal)) :
    dGet (upsertMeta m) (strL "post_name") =
      some (PyVal.pys (pyStrOf (dGet m (strL "post_name")))) := by
  rw [upsertMeta, dGet_append]
  simp [dGet, eq_false (by decide : ¬ (strL "post_id" = strL "post_name")),
    eq_false (by decide : ¬ (strL "total_chunks" = strL "post_name")),
    eq_false (by decide : ¬ (strL "chunk_index" = strL "post_name"))]

theorem dGet_upsertMeta_url (m : List (Str × PyVal)) :
    dGet (upsertMeta m) (strL "url") =
      some ((dGet m (strL "url")).getD (PyVal.pys [])) := by
  rw [upsertMeta, dGet_append]
  simp [dGet, eq_false (by decide : ¬ (strL "post_id" = strL "url")),
    eq_false (by decide : ¬ (strL "total_chunks" = strL "url")),
    eq_false (by decide : ¬ (strL "chunk_index" = strL "url")),
    eq_false (by decide : ¬ (strL "post_name" = strL "url"))]

theorem dGet_upsertMeta_other (m : List (Str × PyVal)) (k : Str)
    (h1 : k ≠ strL "url") (h2 : k ≠ strL "post_name") (h3 : k ≠ strL "chunk_index")
    (h4 : k ≠ strL "total_chunks") (h5 : k ≠ strL "post_id") :
    dGet (upsertMeta m) k = dGet m k := by
  rw [upsertMeta, dGet_append]
  simp [dGet, eq_false (show ¬ (strL "post_id" = k) from fun h => h5 h.symm),
    eq_false (show ¬ (strL "total_chunks" = k) from fun h => h4 h.symm),
    eq_false (show ¬ (strL "chunk_index" = k) from fun h => h3 h.symm),
    eq_false (show ¬ (strL "post_name" = k) from fun h => h2 h.symm),
    eq_false (show ¬ (strL "url" = k) from fun h => h1 h.symm)]

theorem upsertMeta_values_strings (m : List (Str × PyVal))
    (hm : ∀ k v, dGet m k = some v → k ≠ strL "chunk_index" →
      k ≠ strL "total_chunks" → ∃ s, v = PyVal.pys s) :
    ∀ k v, dGet (upsertMeta m) k = some v → ∃ s, v = PyVal.pys s := by
  intro k v hv
  by_cases h5 : k = strL "post_id"
  · subst h5
    rw [dGet_upsertMeta_post_id] at hv
    exact ⟨_, (Option.some.injEq _ _ ▸ hv :).symm⟩
  by_cases h4 : k = strL "total_chunks"
  · subst h4
    rw [dGet_upsertMeta_total] at hv
    exact ⟨_, (by simpa using hv.symm :)⟩
  by_cases h3 : k = strL "chunk_index"
  · subst h3
    rw [dGet_upsertMeta_chunk_index] at hv
    exact ⟨_, (by simpa using hv.symm :)⟩
  by_cases h2 : k = strL "post_name"
  · subst h2
    rw [dGet_upsertMeta_post_name] at hv
    exact ⟨_, (by simpa using hv.symm :)⟩
  by_cases h1 : k = strL "url"
  · subst h1
    rw [dGet_upsertMeta_url] at hv
    have hv2 : v = (dGet m (strL "url")).getD (PyVal.pys []) := by simpa using hv.symm
    rcases hu : dGet m (strL "url") with _ | u
    · rw [hu] at hv2
      exact ⟨[], by simpa using hv2⟩
    · rw [hu] at hv2
      rcases hm _ _ hu (by decide) (by decide) with ⟨s, hs⟩
      exact ⟨s, by rw [hv2]; simpa using hs⟩
  · rw [dGet_upsertMeta_other m k h1 h2 h3 h4 h5] at hv
    exact hm k v hv h3 h4

theorem procMeta_strings (extract : Str → List (Str × Str)) (post : Post)
    (chunks : List Str) (i : Nat) :
    ∀ k v, dGet (procChunkOf extract post chunks i).metadata k = some v →
      k ≠ strL "chunk_index" → k ≠ strL "total_chunks" → ∃ s, v = PyVal.pys s := by
  intro k v hv hk1 hk2
  rw [procChunkOf] at hv
  dsimp only at hv
  rw [dGet_append] at hv
  by_cases h1 : k = strL "post_name"
  · subst h1
    simp [dGet, eq_false (by decide : ¬ (strL "total_chunks" = strL "post_name")),
      eq_false (by decide : ¬ (strL "chunk_index" = strL "post_name")),
      eq_false (by decide : ¬ (strL "url" = strL "post_name"))] at hv
    exact ⟨_, hv.symm⟩
  by_cases h2 : k = strL "url"
  · subst h2
    simp [dGet, eq_false (by decide : ¬ (strL "total_chunks" = strL "url")),
      eq_false (by decide : ¬ (strL "chunk_index" = strL "url"))] at hv
    exact ⟨_, hv.symm⟩
  · have hz : dGet [(strL "post_name", PyVal.pys post.name),
        (strL "url", PyVal.pys post.url),
        (strL "chunk_index", PyVal.pyi i),
        (strL "total_chunks", PyVal.pyi chunks.length)] k = none := by
      simp [dGet, eq_false (show ¬ (strL "total_chunks" = k) from fun h => hk2 h.symm),
        eq_false (show ¬ (strL "chunk_index" = k) from fun h => hk1 h.symm),
        eq_false (show ¬ (strL "url" = k) from fun h => h2 h.symm),
        eq_false (show ¬ (strL "post_name" = k) from fun h => h1 h.symm)]
    rw [hz] at hv
    rw [dGet_map_pys] at hv
    rcases he : dGet (extract post.content) k with _ | u
    · rw [he] at hv
      simp at hv
    · rw [he] at hv
      simp at hv
      exact ⟨u, hv.symm⟩

/-- Claim C4 (amended): each record built by `process_post` for chunk `i` has
id `post.id ++ "_chunk_" ++ str(i)`, content equal to chunk `i`, and metadata
containing the document name (`post_name`), every extracted front-matter key
(as a string), and `chunk_index`/`total_chunks` — but the two numeric fields
leave the component as integers; they are only rendered as strings by the
upsert-metadata construction in the Incremental Indexer, where every stored
value is a string. -/
theorem C4_process_post_metadata (cs co : Nat) (extract : Str → List (Str × Str))
    (removeFM : Str → Str) (post : Post) :
    (∀ ch ∈ process_post cs co extract removeFM post,
      ∃ i, i < (chunk_text cs co (removeFM post.content)).length ∧
        ch.id = post.id ++ strL "_chunk_" ++ natToDec i ∧
        ch.content = (chunk_text cs co (removeFM post.content)).getD i [] ∧
        dGet ch.metadata (strL "chunk_index") = some (PyVal.pyi i) ∧
        dGet ch.metadata (strL "total_chunks") =
          some (PyVal.pyi (chunk_text cs co (removeFM post.content)).length) ∧
        dGet ch.metadata (strL "post_name") = some (PyVal.pys post.name) ∧
        dGet ch.metadata (strL "url") = some (PyVal.pys post.url) ∧
        (∀ k v, dGet (extract post.content) k = some v →
          k ≠ strL "post_name" → k ≠ strL "url" → k ≠ strL "chunk_index" →
          k ≠ strL "total_chunks" →
          dGet ch.metadata k = some (PyVal.pys v))) ∧
    (∀ ch ∈ taggedChunks cs co extract removeFM post,
      ∀ k v, dGet (upsertMeta ch.metadata) k = some v → ∃ s, v = PyVal.pys s) := by
  constructor
  · intro ch hch
    rw [process_post] at hch
    split at hch
    · simp at hch
    · rcases List.mem_map.mp hch with ⟨i, hi, hchdef⟩
      have hilt : i < (chunk_text cs co (removeFM post.content)).length :=
        List.mem_range.mp hi
      subst hchdef
      refine ⟨i, hilt, rfl, rfl, ?_, ?_, ?_, ?_, ?_⟩
      · rw [procChunkOf]
        dsimp only
        rw [dGet_append]
        simp [dGet, eq_false (by decide : ¬ (strL "total_chunks" = strL "chunk_index"))]
      · rw [procChunkOf]
        dsimp only
        rw [dGet_append]
        simp [dGet]
      · rw [procChunkOf]
        dsimp only
        rw [dGet_append]
        simp [dGet, eq_false (by decide : ¬ (strL "total_chunks" = strL "post_name")),
          eq_false (by decide : ¬ (strL "chunk_index" = strL "post_name")),
          eq_false (by decide : ¬ (strL "url" = strL "post_name"))]
      · rw [procChunkOf]
        dsimp only
        rw [dGet_append]
        simp [dGet, eq_false (by decide : ¬ (strL "total_chunks" = strL "url")),
          eq_false (by decide : ¬ (strL "chunk_index" = strL "url"))]
      · intro k v hkv h1 h2 h3 h4
        rw [procChunkOf]
        dsimp only
        rw [dGet_append]
        have hz : dGet [(strL "post_name", PyVal.pys post.name),
            (strL "url", PyVal.pys post.url),
            (strL "chunk_index", PyVal.pyi i),
            (strL "total_chunks", PyVal.pyi
              (chunk_text cs co (removeFM post.content)).length)] k = none := by
          simp [dGet, eq_false (show ¬ (strL "total_chunks" = k) from fun h => h4 h.symm),
            eq_false (show ¬ (strL "chunk_index" = k) from fun h => h3 h.symm),
            eq_false (show ¬ (strL "url" = k) from fun h => h2 h.symm),
            eq_false (show ¬ (strL "post_name" = k) from fun h => h1 h.symm)]
        rw [hz, dGet_map_pys, hkv]
        rfl
  · intro ch hch
    rw [taggedChunks] at hch
    rcases List.mem_map.mp hch with ⟨ch0, hch0, hchdef⟩
    rw [process_post] at hch0
    split at hch0
    · simp at hch0
    · rcases List.mem_map.mp hch0 with ⟨i, _, hch0def⟩
      subst hch0def
      subst hchdef
      apply upsertMeta_values_strings
      intro k v hkv hk1 hk2
      dsimp only at hkv
      rw [dGet_append] at hkv
      by_cases hpid : k = strL "post_id"
      · subst hpid
        simp [dGet] at hkv
        exact ⟨_, hkv.symm⟩
      · have hz : dGet [(strL "post_id", PyVal.pys post.id)] k = none := by
          simp [dGet, eq_false (show ¬ (strL "post_id" = k) from fun h => hpid h.symm)]
        rw [hz] at hkv
        exact procMeta_strings extract post _ i k v hkv hk1 hk2

/-- A small concrete post used by witnesses. -/
def demoPost : Post := ⟨strL "sha1", strL "p.md", strL "Hello world.", strL "u"⟩

/-- A concrete front-matter extractor used by witnesses. -/
def demoExtract : Str → List (Str × Str) := fun _ => [(strL "author", strL "me")]

/-- The single chunk record `process_post` produces for `demoPost`. -/
def demoChunk : ProcChunk :=
  ⟨strL "sha1_chunk_0", strL "Hello world.",
   [(strL "author", PyVal.pys (strL "me")),
    (strL "post_name", PyVal.pys (strL "p.md")),
    (strL "url", PyVal.pys (strL "u")),
    (strL "chunk_index", PyVal.pyi 0),
    (strL "total_chunks", PyVal.pyi 1)]⟩

theorem C4_process_post_metadata_witness :
    demoChunk ∈ process_post 500 100 demoExtract (fun c => c) demoPost ∧
    (∃ i, i < (chunk_text 500 100 demoPost.content).length ∧
      demoChunk.id = demoPost.id ++ strL "_chunk_" ++ natToDec i ∧
      demoChunk.content = (chunk_text 500 100 demoPost.content).getD i [] ∧
      dGet demoChunk.metadata (strL "chunk_index") = some (PyVal.pyi i) ∧
      dGet demoChunk.metadata (strL "total_chunks") =
        some (PyVal.pyi (chunk_text 500 100 demoPost.content).length) ∧
      dGet demoChunk.metadata (strL "post_name") = some (PyVal.pys demoPost.name) ∧
      dGet demoChunk.metadata (strL "url") = some (PyVal.pys demoPost.url) ∧
      (∀ k v, dGet (demoExtract demoPost.content) k = some v →
        k ≠ strL "post_name" → k ≠ strL "url" → k ≠ strL "chunk_index" →
        k ≠ strL "total_chunks" →
        dGet demoChunk.metadata k = some (PyVal.pys v))) :=
  ⟨by decide, (C4_process_post_metadata 500 100 demoExtract (fun c => c) demoPost).1
    demoChunk (by decide)⟩

/-! ### Lemmas on the storing and processing loops -/

theorem storeBatches_ok :
    ∀ (bs : List (List ProcChunk)) (store : List StoredChunk) (off total k : Nat)
      (pr : Progress),
    (storeBatches (fun _ => .ok ()) store off total k pr bs).1 = .ok () ∧
    (storeBatches (fun _ => .ok ()) store off total k pr bs).2.1 =
      bs.foldl (fun st b => upsertBatch st (b.map toStored)) store ∧
    (storeBatches (fun _ => .ok ()) store off total k pr bs).2.2.1 =
      bs.map (List.map toStored) := by
  intro bs
  induction bs with
  | nil =>
    intro store off total k pr
    exact ⟨rfl, rfl, rfl⟩
  | cons b rest ih =>
    intro store off total k pr
    simp only [storeBatches]
    obtain ⟨h1, h2, h3⟩ := ih (upsertBatch store (b.map toStored)) (off + b.length)
      total (k + 1) ⟨strL "storing", off + b.length, total, storingMsg off b.length⟩
    rcases hsb : storeBatches (fun _ => .ok ()) (upsertBatch store (b.map toStored))
        (off + b.length) total (k + 1)
        ⟨strL "storing", off + b.length, total, storingMsg off b.length⟩ rest with
      ⟨out, st2, calls, pr2⟩
    rw [hsb] at h1 h2 h3
    have h3b : calls = List.map (List.map toStored) rest := h3
    simp only [List.foldl_cons, List.map_cons]
    exact ⟨h1, h2, by rw [h3b]⟩

theorem procPosts_none_existing (cs co : Nat) (extract : Str → List (Str × Str))
    (removeFM : Str → Str) :
    ∀ (posts : List Post) (i total : Nat) (acc : List ProcChunk) (pr : Progress),
    (procPosts cs co extract removeFM [] i total acc pr posts).1 =
      acc ++ posts.flatMap (taggedChunks cs co extract removeFM) := by
  intro posts
  induction posts with
  | nil =>
    intro i total acc pr
    simp [procPosts]
  | cons p rest ih =>
    intro i total acc pr
    have hni : ¬ (PyVal.pys p.id ∈ ([] : List PyVal)) := by simp
    simp only [procPosts]
    rw [if_neg hni, ih]
    simp

theorem psStore_all_ok (store : List StoredChunk) (all : List ProcChunk) :
    (psStore (fun _ => .ok ()) store all).outcome = .ok all.length ∧
    (psStore (fun _ => .ok ()) store all).calls =
      (batchesOf 100 all).map (List.map toStored) ∧
    (psStore (fun _ => .ok ()) store all).store =
      (batchesOf 100 all).foldl (fun st b => upsertBatch st (b.map toStored)) store := by
  rw [psStore]
  split
  · rename_i he
    have hnil : all = [] := by simpa using he
    subst hnil
    exact ⟨rfl, rfl, rfl⟩
  · obtain ⟨h1, h2, h3⟩ := storeBatches_ok (batchesOf 100 all) store 0 all.length 0
      ⟨strL "storing", 0, all.length, strL "Storing chunks in ChromaDB"⟩
    rcases hsb : storeBatches (fun _ => .ok ()) store 0 all.length 0
        ⟨strL "storing", 0, all.length, strL "Storing chunks in ChromaDB"⟩
        (batchesOf 100 all) with ⟨out, st2, calls, pr2⟩
    rw [hsb] at h1 h2 h3
    have h1b : out = .ok () := h1
    subst h1b
    have h2b : st2 = (batchesOf 100 all).foldl
        (fun st b => upsertBatch st (b.map toStored)) store := h2
    have h3b : calls = (batchesOf 100 all).map (List.map toStored) := h3
    exact ⟨rfl, h3b, h2b⟩

/-- Claim C10: when the count call or the get call on the collection fails,
`_get_existing_post_ids` swallows the exception and returns the empty set,
so deduplication is silently disabled for that run: no fetched document is
skipped, every document is reprocessed, and all resulting chunks are
re-upserted. -/
theorem C10_read_failure_disables_dedup (e : Str)
    (getR : Except Str (List (Option (List (Str × PyVal))))) (n : Nat)
    (cs co : Nat) (extract : Str → List (Str × Str)) (removeFM : Str → Str)
    (store : List StoredChunk) (posts : List Post) :
    getExistingPostIds (.error e) getR = [] ∧
    getExistingPostIds (.ok n) (.error e) = [] ∧
    (process_and_store_content cs co extract removeFM (.error e) getR
        (fun _ => .ok ()) store posts).outcome =
      .ok (posts.flatMap (taggedChunks cs co extract removeFM)).length ∧
    (process_and_store_content cs co extract removeFM (.error e) getR
        (fun _ => .ok ()) store posts).calls =
      (batchesOf 100 (posts.flatMap (taggedChunks cs co extract removeFM))).map
        (List.map toStored) := by
  refine ⟨rfl, ?_, ?_, ?_⟩
  · by_cases hn : n = 0 <;> simp [getExistingPostIds, hn]
  · rw [process_and_store_content]
    rw [show getExistingPostIds (.error e) getR = [] from rfl,
      procPosts_none_existing]
    simp only [List.nil_append]
    exact (psStore_all_ok store _).1
  · rw [process_and_store_content]
    rw [show getExistingPostIds (.error e) getR = [] from rfl,
      procPosts_none_existing]
    simp only [List.nil_append]
    exact (psStore_all_ok store _).2.1

/-! ### Claims C9 and C6: error behaviour of fetch and update -/

/-- Claim C9: with `most_recent_only=true` and no listing entry matching the
dated post-filename pattern, the selection step raises `IndexError` (from the
`files[0]` access in the log statement) instead of returning an empty list,
so the whole ingestion run ends in the error result rather than completing
with 0 documents. -/
theorem C9_empty_listing_index_error (cs co : Nat)
    (extract : Str → List (Str × Str)) (removeFM : Str → Str)
    (download : FileEntry → Except Str Str) (countR : Except Str Nat)
    (getR : Except Str (List (Option (List (Str × PyVal)))))
    (upsertOp : Nat → Except Str Unit) (store : List StoredChunk)
    (np : Option Nat) (entries : List FileEntry)
    (h : postFilter entries = []) :
    selectPostFiles true np entries = .error (strL "list index out of range") ∧
    fetchMarkdown (.ok entries) download true np startProgress =
      (.error (strL "list index out of range"), startProgress) ∧
    (update_content cs co extract removeFM (.ok entries) download countR getR
        upsertOp store true np).result.status = strL "error" ∧
    (update_content cs co extract removeFM (.ok entries) download countR getR
        upsertOp store true np).result.message =
      strL "Error during content update: list index out of range" := by
  have h1 : sortedFiles entries = [] := by
    rw [sortedFiles, h]
    rfl
  have h2 : selectPostFiles true np entries = .error (strL "list index out of range") := by
    unfold selectPostFiles
    rw [h1]
    rfl
  have h3 : fetchMarkdown (.ok entries) download true np startProgress =
      (.error (strL "list index out of range"), startProgress) := by
    rw [fetchMarkdown, h2]
  refine ⟨h2, h3, ?_, ?_⟩
  · rw [update_content, h3]
  · rw [update_content, h3]
    show strL "Error during content update: " ++ strL "list index out of range" = _
    decide

theorem C9_empty_listing_index_error_witness :
    selectPostFiles true none
        [(⟨strL "README.md", strL "file", strL "s", strL "d", strL "h"⟩ : FileEntry)] =
      .error (strL "list index out of range") :=
  (C9_empty_listing_index_error 500 100 (fun _ => []) (fun c => c) (fun _ => .ok [])
    (.ok 0) (.ok []) (fun _ => .ok ()) [] none
    [⟨strL "README.md", strL "file", strL "s", strL "d", strL "h"⟩] (by decide)).1

/-- Claim C6: for every outcome of the external calls (listing, downloads,
upserts), `update_content` returns a structured result rather than raising:
a fetch failure or a storage failure is converted to a status-error result
whose message carries the exception message; otherwise the result is the
success dict; and the status is always either success or error. -/
theorem C6_update_content_catches (cs co : Nat)
    (extract : Str → List (Str × Str)) (removeFM : Str → Str)
    (listingR : Except Str (List FileEntry)) (download : FileEntry → Except Str Str)
    (countR : Except Str Nat)
    (getR : Except Str (List (Option (List (Str × PyVal)))))
    (upsertOp : Nat → Except Str Unit) (store : List StoredChunk)
    (mro : Bool) (np : Option Nat) :
    (∀ e pr, fetchMarkdown listingR download mro np startProgress = (.error e, pr) →
      update_content cs co extract removeFM listingR download countR getR upsertOp
          store mro np =
        ⟨⟨strL "error", strL "Error during content update: " ++ e, pr⟩, store, []⟩) ∧
    (∀ posts pr e, fetchMarkdown listingR download mro np startProgress = (.ok posts, pr) →
      (process_and_store_content cs co extract removeFM countR getR upsertOp store
        posts).outcome = .error e →
      (update_content cs co extract removeFM listingR download countR getR upsertOp
          store mro np).result.status = strL "error" ∧
      (update_content cs co extract removeFM listingR download countR getR upsertOp
          store mro np).result.message = strL "Error during content update: " ++ e) ∧
    (∀ posts pr n, fetchMarkdown listingR download mro np startProgress = (.ok posts, pr) →
      (process_and_store_content cs co extract removeFM countR getR upsertOp store
        posts).outcome = .ok n →
      (update_content cs co extract removeFM listingR download countR getR upsertOp
          store mro np).result.status = strL "success" ∧
      (update_content cs co extract removeFM listingR download countR getR upsertOp
          store mro np).result.message =
        strL "Updated " ++ natToDec posts.length ++ strL " posts with " ++
          natToDec n ++ strL " chunks") ∧
    ((update_content cs co extract removeFM listingR download countR getR upsertOp
        store mro np).result.status = strL "success" ∨
     (update_content cs co extract removeFM listingR download countR getR upsertOp
        store mro np).result.status = strL "error") := by
  refine ⟨?_, ?_, ?_, ?_⟩
  · intro e pr hf
    rw [update_content, hf]
  · intro posts pr e hf hout
    rcases hps : process_and_store_content cs co extract removeFM countR getR upsertOp
        store posts with ⟨out, st2, calls, pr2⟩
    rw [hps] at hout
    have hout2 : out = .error e := hout
    subst hout2
    rw [update_content, hf]
    dsimp only
    rw [hps]
    exact ⟨rfl, rfl⟩
  · intro posts pr n hf hout
    rcases hps : process_and_store_content cs co extract removeFM countR getR upsertOp
        store posts with ⟨out, st2, calls, pr2⟩
    rw [hps] at hout
    have hout2 : out = .ok n := hout
    subst hout2
    rw [update_content, hf]
    dsimp only
    rw [hps]
    exact ⟨rfl, rfl⟩
  · rcases hf : fetchMarkdown listingR download mro np startProgress with ⟨fr, pr⟩
    cases fr with
    | error e =>
      rw [update_content, hf]
      exact Or.inr rfl
    | ok posts =>
      rcases hps : process_and_store_content cs co extract removeFM countR getR upsertOp
          store posts with ⟨out, st2, calls, pr2⟩
      rw [update_content, hf]
      dsimp only
      rw [hps]
      cases out with
      | error e => exact Or.inr rfl
      | ok n => exact Or.inl rfl

theorem C6_update_content_catches_witness :
    (update_content 500 100 (fun _ => []) (fun c => c) (.error (strL "boom"))
        (fun _ => .error (strL "x")) (.ok 0) (.ok []) (fun _ => .ok ()) [] false none) =
      ⟨⟨strL "error", strL "Error during content update: " ++ strL "boom",
        startProgress⟩, [], []⟩ :=
  (C6_update_content_catches 500 100 (fun _ => []) (fun c => c)
    (.error (strL "boom")) (fun _ => .error (strL "x")) (.ok 0) (.ok [])
    (fun _ => .ok ()) [] false none).1 (strL "boom") startProgress rfl

/-! ### Claim C8: order lemmas for the filename sort -/

theorem lexLtB_irrefl : ∀ a : Str, lexLtB a a = false
  | [] => rfl
  | a :: as => by
    rw [lexLtB, if_neg (lt_irrefl a), if_neg (lt_irrefl a)]
    exact lexLtB_irrefl as

theorem lexLtB_asymm : ∀ a b : Str, lexLtB a b = true → lexLtB b a = false
  | [], [] => by simp [lexLtB]
  | [], _ :: _ => fun _ => rfl
  | _ :: _, [] => by simp [lexLtB]
  | a :: as, b :: bs => by
    rw [lexLtB, lexLtB]
    intro h
    by_cases hab : a < b
    · rw [if_neg (fun hba => lt_asymm hab hba), if_pos hab]
    · by_cases hba : b < a
      · rw [if_neg hab, if_pos hba] at h
        exact absurd h (by simp)
      · rw [if_neg hab, if_neg hba] at h
        rw [if_neg hba, if_neg hab]
        exact lexLtB_asymm as bs h

theorem lexLtB_eq : ∀ a b : Str, lexLtB a b = false → lexLtB b a = false → a = b
  | [], [] => fun _ _ => rfl
  | [], _ :: _ => by simp [lexLtB]
  | _ :: _, [] => by simp [lexLtB]
  | a :: as, b :: bs => by
    rw [lexLtB, lexLtB]
    intro h1 h2
    by_cases hab : a < b
    · rw [if_pos hab] at h1
      exact absurd h1 (by simp)
    · by_cases hba : b < a
      · rw [if_pos hba] at h2
        exact absurd h2 (by simp)
      · rw [if_neg hab, if_neg hba] at h1
        rw [if_neg hba, if_neg hab] at h2
        have hc : a = b := le_antisymm (le_of_not_lt hba) (le_of_not_lt hab)
        rw [hc, lexLtB_eq as bs h1 h2]

theorem lexLtB_nil_right : ∀ a : Str, lexLtB a [] = false
  | [] => rfl
  | _ :: _ => rfl

theorem lexLtB_trans : ∀ a b c : Str, lexLtB a b = true → lexLtB b c = true →
    lexLtB a c = true
  | _, b, [] => by
    intro _ h2
    rw [lexLtB_nil_right] at h2
    exact absurd h2 (by simp)
  | [], b, _ :: _ => fun _ _ => rfl
  | a :: as, b, c :: cs => by
    intro h1 h2
    cases b with
    | nil =>
      rw [lexLtB_nil_right] at h1
      exact absurd h1 (by simp)
    | cons b bs =>
      rw [lexLtB] at h1 h2 ⊢
      by_cases hab : a < b
      · by_cases hbc : b < c
        · rw [if_pos (lt_trans hab hbc)]
        · by_cases hcb : c < b
          · rw [if_neg hbc, if_pos hcb] at h2
            exact absurd h2 (by simp)
          · have hc : b = c := le_antisymm (le_of_not_lt hcb) (le_of_not_lt hbc)
            subst hc
            rw [if_pos hab]
      · by_cases hba : b < a
        · rw [if_neg hab, if_pos hba] at h1
          exact absurd h1 (by simp)
        · have hc : a = b := le_antisymm (le_of_not_lt hba) (le_of_not_lt hab)
          subst hc
          rw [if_neg (lt_irrefl a), if_neg (lt_irrefl a)] at h1
          by_cases hac : a < c
          · rw [if_pos hac]
          · by_cases hca : c < a
            · rw [if_neg hac, if_pos hca] at h2
              exact absurd h2 (by simp)
            · rw [if_neg hac, if_neg hca] at h2 ⊢
              exact lexLtB_trans as bs cs h1 h2

theorem keyLtB_irrefl : ∀ k : List Str, keyLtB k k = false
  | [] => rfl
  | a :: as => by
    rw [keyLtB, lexLtB_irrefl]
    exact keyLtB_irrefl as

theorem keyLtB_nil_right : ∀ k : List Str, keyLtB k [] = false
  | [] => rfl
  | _ :: _ => rfl

theorem keyLtB_asymm : ∀ k l : List Str, keyLtB k l = true → keyLtB l k = false
  | [], [] => by simp [keyLtB]
  | [], _ :: _ => fun _ => rfl
  | _ :: _, [] => by simp [keyLtB]
  | a :: as, b :: bs => by
    rw [keyLtB, keyLtB]
    intro h
    by_cases hab : lexLtB a b = true
    · rw [hab, lexLtB_asymm a b hab]
      rfl
    · have hab2 := Bool.eq_false_iff.mpr hab
      by_cases hba : lexLtB b a = true
      · rw [hab2, hba] at h
        exact absurd h (by simp)
      · have hba2 := Bool.eq_false_iff.mpr hba
        rw [hab2, hba2] at h
        rw [hba2, hab2]
        exact keyLtB_asymm as bs h

theorem keyLtB_eq : ∀ k l : List Str, keyLtB k l = false → keyLtB l k = false → k = l
  | [], [] => fun _ _ => rfl
  | [], _ :: _ => by simp [keyLtB]
  | _ :: _, [] => by simp [keyLtB]
  | a :: as, b :: bs => by
    rw [keyLtB, keyLtB]
    intro h1 h2
    by_cases hab : lexLtB a b = true
    · rw [hab] at h1
      exact absurd h1 (by simp)
    · by_cases hba : lexLtB b a = true
      · rw [hba] at h2
        exact absurd h2 (by simp)
      · have hab2 := Bool.eq_false_iff.mpr hab
        have hba2 := Bool.eq_false_iff.mpr hba
        rw [hab2, hba2] at h1
        rw [hba2, hab2] at h2
        rw [lexLtB_eq a b hab2 hba2, keyLtB_eq as bs h1 h2]

theorem keyLtB_trans : ∀ k l m : List Str, keyLtB k l = true → keyLtB l m = true →
    keyLtB k m = true
  | _, l, [] => by
    intro _ h2
    rw [keyLtB_nil_right] at h2
    exact absurd h2 (by simp)
  | [], l, _ :: _ => fun _ _ => rfl
  | a :: as, l, c :: cs => by
    intro h1 h2
    cases l with
    | nil =>
      rw [keyLtB_nil_right] at h1
      exact absurd h1 (by simp)
    | cons b bs =>
      rw [keyLtB] at h1 h2 ⊢
      by_cases hab : lexLtB a b = true
      · by_cases hbc : lexLtB b c = true
        · rw [lexLtB_trans a b c hab hbc]
          rfl
        · have hbc2 := Bool.eq_false_iff.mpr hbc
          by_cases hcb : lexLtB c b = true
          · rw [hbc2, hcb] at h2
            exact absurd h2 (by simp)
          · have hc : b = c := lexLtB_eq b c hbc2 (Bool.eq_false_iff.mpr hcb)
            subst hc
            rw [hab]
            rfl
      · have hab2 := Bool.eq_false_iff.mpr hab
        by_cases hba : lexLtB b a = true
        · rw [hab2, hba] at h1
          exact absurd h1 (by simp)
        · have hc : a = b := lexLtB_eq a b hab2 (Bool.eq_false_iff.mpr hba)
          subst hc
          rw [lexLtB_irrefl] at h1
          by_cases hac : lexLtB a c = true
          · rw [hac]
            rfl
          · have hac2 := Bool.eq_false_iff.mpr hac
            by_cases hca : lexLtB c a = true
            · rw [hac2, hca] at h2
              exact absurd h2 (by simp)
            · have hca2 := Bool.eq_false_iff.mpr hca
              rw [hac2, hca2] at h2 ⊢
              exact keyLtB_trans as bs cs h1 h2

instance : IsTotal FileEntry fileGe :=
  ⟨fun f g => by
    by_cases h : keyLtB (fkey f) (fkey g) = true
    · exact Or.inr (keyLtB_asymm _ _ h)
    · exact Or.inl (Bool.eq_false_iff.mpr h)⟩

instance : IsTrans FileEntry fileGe :=
  ⟨fun f g k hfg hgk => by
    by_cases hx : keyLtB (fkey f) (fkey k) = true
    · by_cases hgf : keyLtB (fkey g) (fkey f) = true
      · have h2 := keyLtB_trans _ _ _ hgf hx
        rw [hgk] at h2
        exact absurd h2 (by simp)
      · have h1 : fkey f = fkey g := keyLtB_eq _ _ hfg (Bool.eq_false_iff.mpr hgf)
        rw [h1, hgk] at hx
        exact absurd hx (by simp)
    · exact Bool.eq_false_iff.mpr hx⟩

/-- A concrete listing of five dated post files, for the §8 scenario. -/
def demoFile (nm sh : String) : FileEntry :=
  ⟨strL nm, strL "file", strL sh, strL "u", strL "h"⟩

def demoListing : List FileEntry :=
  [demoFile "2023-01-15-a.md" "s1", demoFile "2025-05-26-b.md" "s2",
   demoFile "2024-12-01-c.md" "s3", demoFile "2022-07-04-d.md" "s4",
   demoFile "2025-01-02-e.md" "s5"]

/-- Claim C8: `fetch_markdown_content` sorts the filtered dated files by the
sort key `name.split("-")[:3]` (the zero-padded date triple, so lexicographic
order is date order) descending, and truncates after sorting: the sorted list
is a date-descending permutation of the filtered listing; with
`most_recent_only` on a non-empty filtered listing exactly one file is kept,
one whose key is maximal; with `num_posts = n` the first `n` of the sorted
list are kept, and every kept file's key dominates every non-kept
filtered file's key. -/
theorem C8_sort_truncate (entries : List FileEntry) :
    (List.Sorted fileGe (sortedFiles entries) ∧
      (sortedFiles entries).Perm (postFilter entries)) ∧
    (∀ np, postFilter entries ≠ [] →
      ∃ f, selectPostFiles true np entries = .ok [f] ∧ f ∈ postFilter entries ∧
        ∀ g ∈ postFilter entries, keyLtB (fkey f) (fkey g) = false) ∧
    (∀ n, selectPostFiles false (some n) entries = .ok ((sortedFiles entries).take n) ∧
      ((sortedFiles entries).take n).length = min n (postFilter entries).length ∧
      ∀ f ∈ (sortedFiles entries).take n, ∀ g ∈ postFilter entries,
        g ∈ (sortedFiles entries).take n ∨ keyLtB (fkey f) (fkey g) = false) := by
  have hsort : List.Sorted fileGe (sortedFiles entries) :=
    List.sorted_insertionSort fileGe (postFilter entries)
  have hperm : (sortedFiles entries).Perm (postFilter entries) :=
    List.perm_insertionSort fileGe (postFilter entries)
  refine ⟨⟨hsort, hperm⟩, ?_, ?_⟩
  · intro np hne
    rcases hsf : sortedFiles entries with _ | ⟨f, rest⟩
    · rw [hsf] at hperm
      exact absurd hperm.symm.eq_nil hne
    · refine ⟨f, ?_, ?_, ?_⟩
      · unfold selectPostFiles
        rw [hsf]
        rfl
      · refine hperm.mem_iff.mp ?_
        rw [hsf]
        exact List.mem_cons_self f rest
      · intro g hg
        have hgs : g ∈ sortedFiles entries := hperm.mem_iff.mpr hg
        rw [hsf] at hgs
        rcases List.mem_cons.mp hgs with hgf | hgr
        · rw [hgf]
          exact keyLtB_irrefl _
        · have hsort2 : List.Sorted fileGe (f :: rest) := by
            rw [← hsf]
            exact hsort
          exact List.rel_of_sorted_cons hsort2 g hgr
  · intro n
    refine ⟨rfl, ?_, ?_⟩
    · rw [List.length_take, hperm.length_eq]
    · intro f hf g hg
      by_cases hgin : g ∈ (sortedFiles entries).take n
      · exact Or.inl hgin
      · refine Or.inr ?_
        have hgs : g ∈ sortedFiles entries := hperm.mem_iff.mpr hg
        rw [← List.take_append_drop n (sortedFiles entries)] at hgs
        rcases List.mem_append.mp hgs with h1 | h2
        · exact absurd h1 hgin
        · have hp : List.Pairwise fileGe
              ((sortedFiles entries).take n ++ (sortedFiles entries).drop n) := by
            rw [List.take_append_drop]
            exact hsort
          exact (List.pairwise_append.mp hp).2.2 f hf g h2

theorem C8_sort_truncate_witness :
    postFilter demoListing ≠ [] ∧
    ∃ f, selectPostFiles true none demoListing = .ok [f] ∧
      f ∈ postFilter demoListing ∧
      ∀ g ∈ postFilter demoListing, keyLtB (fkey f) (fkey g) = false :=
  ⟨by decide, (C8_sort_truncate demoListing).2.1 none (by decide)⟩

/-! ### Claim C5: store characterization and two-run deduplication -/

theorem batchesOfAux_flatten {α : Type} (n : Nat) (hn : 0 < n) :
    ∀ (fuel : Nat) (l : List α), l.length ≤ fuel →
      (batchesOfAux n fuel l).flatten = l
  | fuel, [] => by cases fuel <;> intro _ <;> rfl
  | 0, x :: xs => by
    intro h
    simp at h
  | fuel + 1, x :: xs => by
    intro h
    rw [batchesOfAux, List.flatten_cons]
    rw [batchesOfAux_flatten n hn fuel ((x :: xs).drop n) ?_]
    · exact List.take_append_drop n (x :: xs)
    · rw [List.length_drop]
      simp only [List.length_cons] at h ⊢
      omega

theorem batchesOf_flatten {α : Type} (n : Nat) (hn : 0 < n) (l : List α) :
    (batchesOf n l).flatten = l :=
  batchesOfAux_flatten n hn l.length l le_rfl

theorem foldl_upsertBatch_flatten :
    ∀ (bs : List (List ProcChunk)) (store : List StoredChunk),
      bs.foldl (fun st b => upsertBatch st (b.map toStored)) store =
        (bs.flatten.map toStored).foldl upsertOne store
  | [], store => rfl
  | b :: bs, store => by
    rw [List.foldl_cons, List.flatten_cons, List.map_append, List.foldl_append]
    exact foldl_upsertBatch_flatten bs (upsertBatch store (b.map toStored))

theorem mem_upsertOne (store : List StoredChunk) (c s : StoredChunk)
    (h : s ∈ upsertOne store c) : s ∈ store ∨ s = c := by
  rw [upsertOne] at h
  split at h
  · rcases List.mem_map.mp h with ⟨t, ht, hs⟩
    by_cases hid : (t.id == c.id) = true
    · rw [if_pos hid] at hs
      exact Or.inr hs.symm
    · rw [if_neg hid] at hs
      rw [← hs]
      exact Or.inl ht
  · rcases List.mem_append.mp h with h1 | h2
    · exact Or.inl h1
    · exact Or.inr (by simpa using h2)

theorem upsertOne_present (store : List StoredChunk) (c : StoredChunk) :
    ∃ s ∈ upsertOne store c, s.id = c.id := by
  rw [upsertOne]
  split
  · rename_i hany
    rcases List.any_eq_true.mp hany with ⟨t, ht, hid⟩
    exact ⟨c, List.mem_map.mpr ⟨t, ht, by rw [if_pos hid]⟩, rfl⟩
  · exact ⟨c, List.mem_append.mpr (Or.inr (by simp)), rfl⟩

theorem upsertOne_pres (store : List StoredChunk) (c : StoredChunk) (I : Str)
    (h : ∃ s ∈ store, s.id = I) : ∃ s ∈ upsertOne store c, s.id = I := by
  rcases h with ⟨s, hs, hid⟩
  rw [upsertOne]
  split
  · by_cases h2 : (s.id == c.id) = true
    · refine ⟨c, List.mem_map.mpr ⟨s, hs, by rw [if_pos h2]⟩, ?_⟩
      rw [← eq_of_beq h2]
      exact hid
    · exact ⟨s, List.mem_map.mpr ⟨s, hs, by rw [if_neg h2]⟩, hid⟩
  · exact ⟨s, List.mem_append.mpr (Or.inl hs), hid⟩

theorem mem_foldl_upsertOne :
    ∀ (l : List StoredChunk) (store : List StoredChunk) (s : StoredChunk),
      s ∈ l.foldl upsertOne store → s ∈ store ∨ s ∈ l
  | [], _, _ => fun h => Or.inl h
  | c :: cs, store, s => by
    intro h
    rcases mem_foldl_upsertOne cs (upsertOne store c) s h with h1 | h2
    · rcases mem_upsertOne store c s h1 with h3 | h4
      · exact Or.inl h3
      · exact Or.inr (by rw [h4]; exact List.mem_cons_self c cs)
    · exact Or.inr (List.mem_cons_of_mem c h2)

theorem foldl_upsertOne_pres :
    ∀ (l : List StoredChunk) (store : List StoredChunk) (I : Str),
      (∃ s ∈ store, s.id = I) → ∃ s ∈ l.foldl upsertOne store, s.id = I
  | [], _, _ => fun h => h
  | c :: cs, store, I => fun h =>
    foldl_upsertOne_pres cs (upsertOne store c) I (upsertOne_pres store c I h)

theorem foldl_upsertOne_present :
    ∀ (l : List StoredChunk) (store : List StoredChunk) (c : StoredChunk),
      c ∈ l → ∃ s ∈ l.foldl upsertOne store, s.id = c.id
  | [], _, c => fun h => absurd h (List.not_mem_nil c)
  | d :: ds, store, c => by
    intro h
    rcases List.mem_cons.mp h with h1 | h2
    · subst h1
      exact foldl_upsertOne_pres ds (upsertOne store c) c.id (upsertOne_present store c)
    · exact foldl_upsertOne_present ds (upsertOne store d) c h2

theorem procPosts_all_covered (cs co : Nat) (extract : Str → List (Str × Str))
    (removeFM : Str → Str) (existing : List PyVal) :
    ∀ (posts : List Post),
      (∀ p ∈ posts, PyVal.pys p.id ∈ existing ∨
        taggedChunks cs co extract removeFM p = []) →
      ∀ (i total : Nat) (acc : List ProcChunk) (pr : Progress),
        (procPosts cs co extract removeFM existing i total acc pr posts).1 = acc
  | [] => by
    intro _ i total acc pr
    rfl
  | p :: rest => by
    intro h i total acc pr
    simp only [procPosts]
    by_cases hm : PyVal.pys p.id ∈ existing
    · rw [if_pos hm]
      exact procPosts_all_covered cs co extract removeFM existing rest
        (fun q hq => h q (List.mem_cons_of_mem p hq)) (i + 1) total acc _
    · rw [if_neg hm]
      rcases h p (List.mem_cons_self p rest) with h1 | h2
      · exact absurd h1 hm
      · rw [h2, List.append_nil]
        exact procPosts_all_covered cs co extract removeFM existing rest
          (fun q hq => h q (List.mem_cons_of_mem p hq)) (i + 1) total acc _

theorem taggedChunks_shape (cs co : Nat) (extract : Str → List (Str × Str))
    (removeFM : Str → Str) (p : Post) (c : ProcChunk)
    (hc : c ∈ taggedChunks cs co extract removeFM p) :
    (∃ i, c.id = p.id ++ strL "_chunk_" ++ natToDec i) ∧
    dGet c.metadata (strL "post_id") = some (PyVal.pys p.id) := by
  rw [taggedChunks] at hc
  rcases List.mem_map.mp hc with ⟨ch, hch, hceq⟩
  subst hceq
  constructor
  · rw [process_post] at hch
    split at hch
    · exact absurd hch (List.not_mem_nil ch)
    · rcases List.mem_map.mp hch with ⟨i, _, hieq⟩
      subst hieq
      exact ⟨i, rfl⟩
  · show dGet (ch.metadata ++ [(strL "post_id", PyVal.pys p.id)]) (strL "post_id") =
      some (PyVal.pys p.id)
    rw [dGet_append]
    simp [dGet]

theorem underscore_split :
    ∀ (d1 d2 r1 r2 : Str), (∀ ch ∈ d1, ch ≠ '_') → (∀ ch ∈ d2, ch ≠ '_') →
      d1 ++ '_' :: r1 = d2 ++ '_' :: r2 → d1 = d2 ∧ r1 = r2
  | [], [], r1, r2 => by
    intro _ _ h
    simpa using h
  | [], c :: cs, r1, r2 => by
    intro _ h2 h
    simp only [List.nil_append, List.cons_append, List.cons.injEq] at h
    exact absurd h.1.symm (h2 c (List.mem_cons_self c cs))
  | c :: cs, [], r1, r2 => by
    intro h1 _ h
    simp only [List.nil_append, List.cons_append, List.cons.injEq] at h
    exact absurd h.1 (h1 c (List.mem_cons_self c cs))
  | c :: cs, c2 :: cs2, r1, r2 => by
    intro h1 h2 h
    simp only [List.cons_append, List.cons.injEq] at h
    obtain ⟨hd, ht⟩ := h
    obtain ⟨ha, hb⟩ := underscore_split cs cs2 r1 r2
      (fun x hx => h1 x (List.mem_cons_of_mem c hx))
      (fun x hx => h2 x (List.mem_cons_of_mem c2 hx)) ht
    subst hd
    rw [ha, hb]
    exact ⟨rfl, rfl⟩

theorem chunk_id_inj (a b d1 d2 : Str)
    (h1 : ∀ ch ∈ d1, ch ≠ '_') (h2 : ∀ ch ∈ d2, ch ≠ '_')
    (h : a ++ strL "_chunk_" ++ d1 = b ++ strL "_chunk_" ++ d2) : a = b := by
  have hr := congrArg List.reverse h
  simp only [List.reverse_append] at hr
  have hu : (strL "_chunk_").reverse = '_' :: strL "knuhc" ++ ['_'] := by decide
  rw [hu] at hr
  simp only [List.cons_append, List.append_assoc] at hr
  have hrev : ∀ x : Str, (∀ ch ∈ x, ch ≠ '_') → ∀ ch ∈ x.reverse, ch ≠ '_' := by
    intro x hx ch hch
    exact hx ch (List.mem_reverse.mp hch)
  obtain ⟨_, ht⟩ := underscore_split d1.reverse d2.reverse _ _
    (hrev d1 h1) (hrev d2 h2) hr
  have ha := List.append_cancel_left ht
  simp only [List.nil_append, List.cons.injEq, true_and] at ha
  exact List.reverse_injective ha

theorem upsertMeta_isEmpty (m : List (Str × PyVal)) :
    (upsertMeta m).isEmpty = false := by
  rw [upsertMeta]
  cases m <;> rfl

theorem mem_existingIdsOfStore (store : List StoredChunk) (s : StoredChunk)
    (v : PyVal) (hs : s ∈ store)
    (hm : dGet s.metadata (strL "post_id") = some v)
    (hne : s.metadata.isEmpty = false)
    (hv : v ≠ PyVal.pys (strL "None")) :
    v ∈ existingIdsOfStore store := by
  have h0 : store ≠ [] := List.ne_nil_of_mem hs
  show v ∈ getExistingPostIds (.ok store.length) (.ok (store.map (fun c => some c.metadata)))
  rw [getExistingPostIds]
  rw [if_neg (fun hl : store.length = 0 => h0 (List.eq_nil_of_length_eq_zero hl))]
  rw [if_neg ?_]
  · refine List.mem_dedup.mpr (List.mem_filterMap.mpr ⟨some s.metadata, ?_, ?_⟩)
    · exact List.mem_map.mpr ⟨s, hs, rfl⟩
    · show (if s.metadata.isEmpty then none else
        match dGet s.metadata (strL "post_id") with
        | some w => if w = PyVal.pys (strL "None") then none else some w
        | none => none) = some v
      rw [hne, hm]
      show (if v = PyVal.pys (strL "None") then none else some v) = some v
      rw [if_neg hv]
  · intro hemp
    rcases store with _ | ⟨t, ts⟩
    · exact h0 rfl
    · exact absurd hemp (by simp)

theorem updateRun_spec (cs co : Nat) (extract : Str → List (Str × Str))
    (removeFM : Str → Str) (listingR : Except Str (List FileEntry))
    (download : FileEntry → Except Str Str) (mro : Bool) (np : Option Nat)
    (store : List StoredChunk) (posts : List Post) (pr : Progress)
    (hfetch : fetchMarkdown listingR download mro np startProgress = (.ok posts, pr))
    (allC : List ProcChunk)
    (hall : (procPosts cs co extract removeFM (existingIdsOfStore store) 0
        posts.length []
        ⟨strL "processing", 0, posts.length, strL "Processing posts into chunks"⟩
        posts).1 = allC) :
    (updateRun cs co extract removeFM listingR download mro np store).store =
      (batchesOf 100 allC).foldl (fun st b => upsertBatch st (b.map toStored)) store ∧
    (updateRun cs co extract removeFM listingR download mro np store).calls =
      (batchesOf 100 allC).map (List.map toStored) ∧
    (updateRun cs co extract removeFM listingR download mro np store).result.status =
      strL "success" ∧
    (updateRun cs co extract removeFM listingR download mro np store).result.message =
      strL "Updated " ++ natToDec posts.length ++ strL " posts with " ++
        natToDec allC.length ++ strL " chunks" := by
  have hps_eq : process_and_store_content cs co extract removeFM (storeCount store)
      (storeMetas store) (fun _ => .ok ()) store posts =
      psStore (fun _ => .ok ()) store allC := by
    rw [process_and_store_content, ← existingIdsOfStore, hall]
  obtain ⟨ho, hc, hsst⟩ := psStore_all_ok store allC
  rw [updateRun, update_content, hfetch]
  dsimp only
  rw [hps_eq]
  rcases hv : psStore (fun _ => .ok ()) store allC with ⟨out, st2, calls2, pr2⟩
  rw [hv] at ho hc hsst
  have ho2 : out = .ok allC.length := ho
  subst ho2
  exact ⟨hsst, hc, rfl, rfl⟩

/-- Claim C5: with all collection calls succeeding and an unchanged fetched
document set, a first ingestion run from an empty store leaves every
processed document id readable back as a `post_id`, so the second run skips
every document, performs zero upsert calls, and returns the success message
reporting `posts.length` posts with 0 chunks. -/
theorem C5_second_run_no_upserts (cs co : Nat) (extract : Str → List (Str × Str))
    (removeFM : Str → Str) (listingR : Except Str (List FileEntry))
    (download : FileEntry → Except Str Str) (mro : Bool) (np : Option Nat)
    (posts : List Post) (pr : Progress)
    (hfetch : fetchMarkdown listingR download mro np startProgress = (.ok posts, pr))
    (hids : ∀ p ∈ posts, p.id ≠ strL "None") :
    (∀ p ∈ posts, taggedChunks cs co extract removeFM p ≠ [] →
      PyVal.pys p.id ∈ existingIdsOfStore
        (updateRun cs co extract removeFM listingR download mro np []).store) ∧
    (updateRun cs co extract removeFM listingR download mro np
      (updateRun cs co extract removeFM listingR download mro np []).store).calls = [] ∧
    (updateRun cs co extract removeFM listingR download mro np
        (updateRun cs co extract removeFM listingR download mro np
          []).store).result.status = strL "success" ∧
    (updateRun cs co extract removeFM listingR download mro np
        (updateRun cs co extract removeFM listingR download mro np
          []).store).result.message =
      strL "Updated " ++ natToDec posts.length ++ strL " posts with " ++
        natToDec 0 ++ strL " chunks" := by
  have hall1 : (procPosts cs co extract removeFM
      (existingIdsOfStore ([] : List StoredChunk)) 0 posts.length []
      ⟨strL "processing", 0, posts.length, strL "Processing posts into chunks"⟩
      posts).1 = posts.flatMap (taggedChunks cs co extract removeFM) := by
    rw [show existingIdsOfStore ([] : List StoredChunk) = [] from rfl,
      procPosts_none_existing]
    simp
  obtain ⟨hstore1, _, _, _⟩ := updateRun_spec cs co extract removeFM listingR download
    mro np [] posts pr hfetch _ hall1
  have hflat : (updateRun cs co extract removeFM listingR download mro np []).store =
      ((posts.flatMap (taggedChunks cs co extract removeFM)).map toStored).foldl
        upsertOne [] := by
    rw [hstore1, foldl_upsertBatch_flatten, batchesOf_flatten 100 (by omega)]
  have hmem : ∀ p ∈ posts, taggedChunks cs co extract removeFM p ≠ [] →
      PyVal.pys p.id ∈ existingIdsOfStore
        (updateRun cs co extract removeFM listingR download mro np []).store := by
    intro p hp hne
    rcases htc : taggedChunks cs co extract removeFM p with _ | ⟨c, crest⟩
    · exact absurd htc hne
    · have hcmem : c ∈ posts.flatMap (taggedChunks cs co extract removeFM) :=
        List.mem_flatMap.mpr ⟨p, hp, by rw [htc]; exact List.mem_cons_self c crest⟩
      obtain ⟨s, hsmem, hsid⟩ := foldl_upsertOne_present
        ((posts.flatMap (taggedChunks cs co extract removeFM)).map toStored) []
        (toStored c) (List.mem_map.mpr ⟨c, hcmem, rfl⟩)
      rcases mem_foldl_upsertOne _ [] s hsmem with habs | hsl
      · exact absurd habs (List.not_mem_nil s)
      · rcases List.mem_map.mp hsl with ⟨c2, hc2, hs_eq⟩
        rcases List.mem_flatMap.mp hc2 with ⟨q, hq, hc2q⟩
        obtain ⟨⟨j, hjid⟩, hc2meta⟩ := taggedChunks_shape cs co extract removeFM q c2 hc2q
        obtain ⟨⟨i, hiid⟩, _⟩ := taggedChunks_shape cs co extract removeFM p c
          (by rw [htc]; exact List.mem_cons_self c crest)
        have hc2id : c2.id = c.id := by
          have h1 : (toStored c2).id = (toStored c).id := by
            rw [hs_eq]
            exact hsid
          exact h1
        have hqp : q.id = p.id := by
          apply chunk_id_inj q.id p.id (natToDec j) (natToDec i)
            (natToDec_ne_underscore j) (natToDec_ne_underscore i)
          rw [← hjid, ← hiid]
          exact hc2id
        have hsm : s.metadata = upsertMeta c2.metadata := by
          rw [← hs_eq]
          rfl
        have hdg : dGet s.metadata (strL "post_id") = some (PyVal.pys p.id) := by
          rw [hsm, dGet_upsertMeta_post_id, hc2meta]
          show some (PyVal.pys q.id) = some (PyVal.pys p.id)
          rw [hqp]
        refine mem_existingIdsOfStore _ s (PyVal.pys p.id) ?_ hdg ?_ ?_
        · rw [hflat]
          exact hsmem
        · rw [hsm]
          exact upsertMeta_isEmpty c2.metadata
        · intro hcontra
          exact hids p hp (PyVal.pys.inj hcontra)
  have hcov : ∀ p ∈ posts, PyVal.pys p.id ∈ existingIdsOfStore
      (updateRun cs co extract removeFM listingR download mro np []).store ∨
      taggedChunks cs co extract removeFM p = [] := by
    intro p hp
    by_cases h : taggedChunks cs co extract removeFM p = []
    · exact Or.inr h
    · exact Or.inl (hmem p hp h)
  have hall2 : (procPosts cs co extract removeFM
      (existingIdsOfStore
        (updateRun cs co extract removeFM listingR download mro np []).store)
      0 posts.length []
      ⟨strL "processing", 0, posts.length, strL "Processing posts into chunks"⟩
      posts).1 = ([] : List ProcChunk) :=
    procPosts_all_covered cs co extract removeFM _ posts hcov 0 posts.length [] _
  obtain ⟨_, hcalls2, hstat2, hmsg2⟩ := updateRun_spec cs co extract removeFM listingR
    download mro np (updateRun cs co extract removeFM listingR download mro np []).store
    posts pr hfetch [] hall2
  exact ⟨hmem, hcalls2, hstat2, hmsg2⟩

/-- A one-file listing and download used to exercise the two-run scenario. -/
def w5entry : FileEntry :=
  ⟨strL "2025-01-02-a.md", strL "file", strL "abc", strL "u", strL "h"⟩

def w5dl : FileEntry → Except Str Str := fun _ => .ok (strL "Hi.")

def w5post : Post := ⟨strL "abc", strL "2025-01-02-a.md", strL "Hi.", strL "h"⟩

def w5pr : Progress := ⟨strL "downloading", 1, 1, strL "Downloading: 2025-01-02-a.md"⟩

theorem C5_second_run_no_upserts_witness :
    (∀ p ∈ [w5post], taggedChunks 10 5 (fun _ => []) (fun c => c) p ≠ [] →
      PyVal.pys p.id ∈ existingIdsOfStore
        (updateRun 10 5 (fun _ => []) (fun c => c) (.ok [w5entry]) w5dl false none
          []).store) ∧
    (updateRun 10 5 (fun _ => []) (fun c => c) (.ok [w5entry]) w5dl false none
      (updateRun 10 5 (fun _ => []) (fun c => c) (.ok [w5entry]) w5dl false none
        []).store).calls = [] ∧
    (updateRun 10 5 (fun _ => []) (fun c => c) (.ok [w5entry]) w5dl false none
      (updateRun 10 5 (fun _ => []) (fun c => c) (.ok [w5entry]) w5dl false none
        []).store).result.status = strL "success" ∧
    (updateRun 10 5 (fun _ => []) (fun c => c) (.ok [w5entry]) w5dl false none
      (updateRun 10 5 (fun _ => []) (fun c => c) (.ok [w5entry]) w5dl false none
        []).store).result.message =
      strL "Updated " ++ natToDec ([w5post] : List Post).length ++
        strL " posts with " ++ natToDec 0 ++ strL " chunks" :=
  C5_second_run_no_upserts 10 5 (fun _ => []) (fun c => c) (.ok [w5entry]) w5dl
    false none [w5post] w5pr rfl (by decide)

end RAGChat
